import Mathlib

/-!
Verification of the goreadly readability extractor.

The Go sources (src/readability.go, src/unnamed/part_000) operate on
parsed HTML trees (golang.org/x/net/html nodes).  We embed the tree as a
pair of mutually inductive types (node / forest) so that every traversal
is structural recursion and kernel-reduces on concrete inputs.

Candidate scores are `float32` in Go.  All score accumulation is exact
in float32 (integers and halves far below 2^24), and the link-density
rescaling is an exact division in our model; we represent these numbers
as unnormalized integer fractions (`Q` below, kept with positive
denominators throughout the pipeline) with exact comparisons, which is
faithful on every comparison the pipeline makes away from float rounding
boundaries, and kernel-reduces on concrete inputs.
-/

namespace Goreadly

mutual

/-- Node kinds of golang.org/x/net/html trees that the extractor
inspects (doctype and error nodes play no role in this code). -/
inductive HNode where
  | elem (tag : String) (attrs : List (String × String)) (children : HForest)
  | text (data : String)
  | comment (data : String)
  | document (children : HForest)
  deriving DecidableEq, Repr

inductive HForest where
  | nil
  | cons (head : HNode) (tail : HForest)
  deriving DecidableEq, Repr

end

namespace HForest

def ofList : List HNode → HForest
  | [] => .nil
  | n :: rest => .cons n (ofList rest)

def toList : HForest → List HNode
  | .nil => []
  | .cons n rest => n :: toList rest

def append : HForest → HForest → HForest
  | .nil, ys => ys
  | .cons x xs, ys => .cons x (append xs ys)

end HForest

/-- `htmlquery.SelectAttr`: first attribute with the given key, else "". -/
def selectAttr (attrs : List (String × String)) (key : String) : String :=
  match attrs.find? (fun a => a.1 == key) with
  | some a => a.2
  | none => ""

/-- `n.Data` of a Go html.Node: tag name for elements, text for
text/comment nodes, "" for the document node. -/
def HNode.data : HNode → String
  | .elem tag _ _ => tag
  | .text s => s
  | .comment s => s
  | .document _ => ""

def HNode.attrsOf : HNode → List (String × String)
  | .elem _ attrs _ => attrs
  | _ => []

mutual

/-- `htmlquery.InnerText`: concatenation of all text-node data in the
subtree; comments contribute nothing. -/
def innerText : HNode → String
  | .text s => s
  | .comment _ => ""
  | .elem _ _ cs => innerTextF cs
  | .document cs => innerTextF cs

def innerTextF : HForest → String
  | .nil => ""
  | .cons c cs => innerText c ++ innerTextF cs

end

/-- Go `utf8.RuneCountInString` = number of Unicode codepoints. -/
def runeCount (s : String) : ℕ := s.length

/-- Go `len(s)` on a string = number of UTF-8 bytes. -/
def byteLen (s : String) : ℕ := s.utf8ByteSize

/-- Go `strings.Count(s, c)` for a one-rune pattern. -/
def countChar (c : Char) (s : String) : ℕ := s.toList.count c

/-- Exact rational arithmetic on unnormalized integer fractions: the
score/link-density domain.  Comparisons are cross-multiplications, valid
for positive denominators, which every pipeline value has. -/
structure Q where
  num : ℤ
  den : ℤ
  deriving DecidableEq, Repr

def Q.ofInt (n : ℤ) : Q := ⟨n, 1⟩

def Q.add (a b : Q) : Q := ⟨a.num * b.den + b.num * a.den, a.den * b.den⟩

def Q.sub (a b : Q) : Q := ⟨a.num * b.den - b.num * a.den, a.den * b.den⟩

def Q.mul (a b : Q) : Q := ⟨a.num * b.num, a.den * b.den⟩

/-- Division by 2 (`contentScore / 2.0`). -/
def Q.half (a : Q) : Q := ⟨a.num, a.den * 2⟩

def Q.lt (a b : Q) : Bool := a.num * b.den < b.num * a.den

def Q.le (a b : Q) : Bool := a.num * b.den ≤ b.num * a.den

def Q.isZero (a : Q) : Bool := a.num = 0

def Q.eqv (a b : Q) : Bool := a.num * b.den = b.num * a.den

/-- Positivity of the denominator: the well-formedness every pipeline
value enjoys. -/
def Q.posDen (a : Q) : Prop := 0 < a.den

/-- Character class of Go `unicode.IsSpace` (the white-space codepoints
that `strings.TrimSpace` strips). -/
def goIsSpace (c : Char) : Bool :=
  c = ' ' ∨ c = '\t' ∨ c = '\n' ∨ c = '\r' ∨ c.val = 11 ∨ c.val = 12 ∨
  c.val = 0x85 ∨ c.val = 0xA0 ∨ c.val = 0x1680 ∨
  (0x2000 ≤ c.val ∧ c.val ≤ 0x200A) ∨ c.val = 0x2028 ∨ c.val = 0x2029 ∨
  c.val = 0x202F ∨ c.val = 0x205F ∨ c.val = 0x3000

/-- Go `strings.TrimSpace`. -/
def goTrim (s : String) : String :=
  ⟨((s.toList.dropWhile goIsSpace).reverse.dropWhile goIsSpace).reverse⟩

/-- Whether the character list `p` occurs as a contiguous sublist of `s`. -/
def listIsSub (p : List Char) : List Char → Bool
  | [] => p.isEmpty
  | c :: rest => p.isPrefixOf (c :: rest) || listIsSub p rest

/-- Whether `pat` occurs as a substring of `hay` (byte-level substring
search of Go on valid UTF-8 agrees with codepoint-level search). -/
def containsSub (hay pat : String) : Bool := listIsSub pat.toList hay.toList

def lowerStr (s : String) : String := ⟨s.toList.map Char.toLower⟩

/-- Case-insensitive "matches one of these literal alternatives" — all the
regular expressions of the source are plain alternations of literals, so
`(?i)a|b|...` matching is substring containment after lowercasing. -/
def containsAnyCI (pats : List String) (s : String) : Bool :=
  pats.any (fun p => containsSub (lowerStr s) p)

/-- Go regexp `\.( |$)`: a period followed by a space or end of string
(the `sentenceRegexp` of the source). -/
def sentenceMatchL : List Char → Bool
  | [] => false
  | ['.'] => true
  | '.' :: ' ' :: _ => true
  | _ :: rest => sentenceMatchL rest

def sentenceMatch (s : String) : Bool := sentenceMatchL s.toList

/-- `negativeRegexp` literal alternatives. -/
def negativePatterns : List String :=
  ["combx", "comment", "com-", "foot", "footer", "footnote", "masthead",
   "media", "meta", "outbrain", "promo", "related", "scroll", "shoutbox",
   "sidebar", "sponsor", "shopping", "tags", "tool", "widget"]

/-- `positiveRegexp` literal alternatives. -/
def positivePatterns : List String :=
  ["article", "body", "content", "entry", "hentry", "main", "page",
   "pagination", "post", "text", "blog", "story"]

/-- `blacklistCandidatesRegexp` literal alternatives. -/
def blacklistPatterns : List String := ["popupbody"]

/-- `okMaybeItsACandidateRegexp` literal alternatives. -/
def okMaybePatterns : List String :=
  ["and", "article", "body", "column", "main", "shadow"]

/-- `unlikelyCandidatesRegexp` literal alternatives. -/
def unlikelyPatterns : List String :=
  ["combx", "comment", "community", "hidden", "disqus", "modal", "extra",
   "foot", "header", "menu", "remark", "rss", "shoutbox", "sidebar",
   "sponsor", "ad-break", "agegate", "pagination", "pager", "popup"]

/-- `divToPElementsRegexp` literal alternatives (the part_000 variant,
matched against element tag names). -/
def divToPPatterns : List String :=
  ["a", "blockquote", "dl", "div", "img", "ol", "p", "pre", "table",
   "ul", "select"]

/-- `classWeight`: −25/+25 per negative/positive pattern hit on the
class attribute and again on the id attribute. -/
def classWeight (n : HNode) : ℤ :=
  let wOf : String → ℤ := fun v =>
    if v ≠ "" then
      (if containsAnyCI negativePatterns v then -25 else 0) +
      (if containsAnyCI positivePatterns v then 25 else 0)
    else 0
  wOf (selectAttr n.attrsOf "class") + wOf (selectAttr n.attrsOf "id")

/-- Tag bonus of `scoreNode`. -/
def tagBonus (tag : String) : ℤ :=
  if tag = "article" then 10
  else if tag = "section" then 8
  else if tag = "div" then 5
  else if tag = "pre" ∨ tag = "td" ∨ tag = "blockquote" then 3
  else if tag ∈ ["address", "ol", "ul", "dl", "dd", "dt", "li", "form"] then -3
  else if tag ∈ ["h1", "h2", "h3", "h4", "h5", "h6", "th"] then -5
  else 0

/-- `scoreNode`: classWeight + tag bonus + itemscope/itemtype bonuses
(the Go loop tests every attribute, so each occurrence contributes). -/
def scoreNode (n : HNode) : Q :=
  Q.ofInt (classWeight n + tagBonus n.data +
    n.attrsOf.foldl
      (fun acc a =>
        acc + (if a.1 = "itemscope" then 5 else 0) +
              (if a.1 = "itemtype" then 30 else 0)) 0)

/-- An `<a>` counted by `getLinkDensity` (href present and neither empty
nor "#"). -/
def anchorQualifies : HNode → Bool
  | .elem "a" attrs _ =>
      let v := selectAttr attrs "href"
      ¬(v = "" ∨ v = "#")
  | _ => false

mutual

/-- Total innerText length (in codepoints) of the qualifying `<a>`
strict descendants, each anchor counted with its full innerText
(`linkLength` of `getLinkDensity`). -/
def linkLen : HNode → ℕ
  | .elem _ _ cs => linkLenF cs
  | .document cs => linkLenF cs
  | _ => 0

def linkLenF : HForest → ℕ
  | .nil => 0
  | .cons c cs =>
      (if anchorQualifies c then (innerText c).length else 0) +
      linkLen c + linkLenF cs

end

/-- `getLinkDensity` (float32 division modelled as an exact fraction). -/
def getLinkDensity (n : HNode) : Q :=
  let t := (innerText n).length
  if t = 0 then Q.ofInt 0 else ⟨(linkLen n : ℤ), (t : ℤ)⟩

mutual

/-- No qualifying anchor among the strict descendants. -/
def anchorFree : HNode → Bool
  | .elem _ _ cs => anchorFreeF cs
  | .document cs => anchorFreeF cs
  | _ => true

def anchorFreeF : HForest → Bool
  | .nil => true
  | .cons c cs => (!anchorQualifies c) && anchorFree c && anchorFreeF cs

end

mutual

/-- No qualifying anchor strict descendant contains another qualifying
anchor (anchors are not nested). -/
def noNestedAnchors : HNode → Bool
  | .elem _ _ cs => noNestedF cs
  | .document cs => noNestedF cs
  | _ => true

def noNestedF : HForest → Bool
  | .nil => true
  | .cons c cs =>
      (if anchorQualifies c then anchorFree c else noNestedAnchors c) &&
      noNestedF cs

end

/-! Paths address nodes: a path is the list of child indices from the
root, playing the role of Go node pointers (candidate-map keys are node
identities). -/

def forestGet : HForest → ℕ → Option HNode
  | .nil, _ => none
  | .cons c _, 0 => some c
  | .cons _ cs, i + 1 => forestGet cs i

def HNode.childrenOf : HNode → HForest
  | .elem _ _ cs => cs
  | .document cs => cs
  | _ => .nil

def nodeAt : HNode → List ℕ → Option HNode
  | n, [] => some n
  | n, i :: rest =>
      match forestGet n.childrenOf i with
      | some c => nodeAt c rest
      | none => none

mutual

def sizeH : HNode → ℕ
  | .elem _ _ cs => 1 + sizeHF cs
  | .document cs => 1 + sizeHF cs
  | _ => 1

def sizeHF : HForest → ℕ
  | .nil => 0
  | .cons c cs => sizeH c + sizeHF cs

end

/-! Preprocessor.

Note on the `<br>`-collapse step of part_000 (lines 103-157): its
`nextElement` helper initialises its named return value `next` to nil and
its loop is guarded by `next != nil`, so it always returns nil; hence the
chain-detection loop never runs, `replaced` stays false, and the whole
step is a no-op on every tree.  We therefore embed it as the identity. -/

/-- Unlikely-candidate removal test on one element: script/style/noscript
always go, html/body/article always stay, otherwise the concatenated
class+id string is tested against the blacklist and unlikely/okMaybe
patterns. -/
def shouldRemoveUnlikely (tag : String) (attrs : List (String × String)) : Bool :=
  if tag = "script" ∨ tag = "style" ∨ tag = "noscript" then true
  else if tag = "html" ∨ tag = "body" ∨ tag = "article" then false
  else
    let str := selectAttr attrs "class" ++ selectAttr attrs "id"
    containsAnyCI blacklistPatterns str ||
      (containsAnyCI unlikelyPatterns str && !containsAnyCI okMaybePatterns str)

mutual

/-- The unlikely-candidate removal pass: a matching element is unlinked
together with its subtree (the Go iterator still walks the detached
subtree, but mutations there are invisible in the final tree). -/
def removeUnlikely : HNode → HNode
  | .elem t a cs => .elem t a (removeUnlikelyF cs)
  | .document cs => .document (removeUnlikelyF cs)
  | n => n

def removeUnlikelyF : HForest → HForest
  | .nil => .nil
  | .cons c cs =>
      match c with
      | .elem t a ccs =>
          if shouldRemoveUnlikely t a then removeUnlikelyF cs
          else .cons (.elem t a (removeUnlikelyF ccs)) (removeUnlikelyF cs)
      | other => .cons other (removeUnlikelyF cs)

end

mutual

/-- `hasChildBlockElement`: some strict-descendant element tag matches
`divToPElementsRegexp`. -/
def hasChildBlock : HNode → Bool
  | .elem _ _ cs => hasBlockF cs
  | .document cs => hasBlockF cs
  | _ => false

def hasBlockF : HForest → Bool
  | .nil => false
  | .cons c cs =>
      (match c with
       | .elem t _ _ => containsAnyCI divToPPatterns t
       | _ => false) || hasChildBlock c || hasBlockF cs

end

/-- Sum of `len(strings.TrimSpace(data))` over the text children of a
node (the `l` accumulator of `hasSinglePInsideElement`). -/
def textChildTrimLen (cs : HForest) : ℕ :=
  (cs.toList.map fun c =>
    match c with
    | .text s => byteLen (goTrim s)
    | _ => 0).sum

/-- `hasSinglePInsideElement`: exactly one `<p>` child, and the text
children of the `<p>` children carry non-whitespace content. -/
def hasSinglePInside (cs : HForest) : Option HNode :=
  match cs.toList.filter (fun c => c.data == "p" && (match c with | .elem _ _ _ => true | _ => false)) with
  | [p] => if textChildTrimLen p.childrenOf > 0 then some p else none
  | _ => none

/-- A text child with non-whitespace content (EXPERIMENTAL branch of div
normalization). -/
def isNonWSText : HNode → Bool
  | .text s => byteLen (goTrim s) > 0
  | _ => false

/-- Wrap each non-whitespace text child in a synthetic
`<p class="readability-styled">` at its own position. -/
def wrapTexts : HForest → HForest
  | .nil => .nil
  | .cons c cs =>
      if isNonWSText c then
        .cons (.elem "p" [("class", "readability-styled")] (.cons c .nil)) (wrapTexts cs)
      else .cons c (wrapTexts cs)

mutual

/-- Div normalization processed in document pre-order: lift a single-`<p>`
div, rename a div without block descendants to `<p>`, otherwise wrap its
bare text children.  Fuel makes the lift re-dispatch structural; any fuel
at least the subtree size suffices and the pipeline passes `sizeH`. -/
def divStepFuel : ℕ → HNode → List HNode
  | 0, n => [n]
  | f + 1, .elem t a cs =>
      if t = "div" then
        match hasSinglePInside cs with
        | some p => divStepFuel f p
        | none =>
          if !hasChildBlock (.elem t a cs) then [.elem "p" a (divForestFuel f cs)]
          else [.elem "div" a (divForestFuel f (wrapTexts cs))]
      else [.elem t a (divForestFuel f cs)]
  | f + 1, .document cs => [.document (divForestFuel f cs)]
  | _ + 1, n => [n]

def divForestFuel : ℕ → HForest → HForest
  | 0, cs => cs
  | _ + 1, .nil => .nil
  | f + 1, .cons c cs =>
      HForest.append (HForest.ofList (divStepFuel f c)) (divForestFuel f cs)

end

def divNormalize (t : HNode) : HNode :=
  match divStepFuel (2 * sizeH t + 8) t with
  | [n] => n
  | _ => t

/-- The whole preprocessor: no-op `<br>` collapse, unlikely-candidate
removal, div normalization. -/
def preprocess (t : HNode) : HNode := divNormalize (removeUnlikely t)

/-! Scorer. -/

/-- Default of the process-wide tunable `MinTextLength`. -/
def minTextLengthDefault : ℕ := 25

/-- One `<p>`/`<td>` hit of the scoring loop: the paragraph text together
with the identities (path + snapshot) of its parent and grandparent. -/
structure ScoreEntry where
  parentPath : List ℕ
  parentNode : HNode
  gp : Option (List ℕ × HNode)
  text : String
  deriving DecidableEq, Repr

mutual

/-- Collect the scoring hits of `//p|//td` in document order, carrying
the parent and grandparent context down the traversal. -/
def collectN (path : List ℕ) (par gpar : Option (List ℕ × HNode)) :
    HNode → List ScoreEntry
  | .elem t a cs =>
      (if t = "p" ∨ t = "td" then
        match par with
        | some pp => [⟨pp.1, pp.2, gpar, innerText (.elem t a cs)⟩]
        | none => []
       else []) ++ collectF path 0 (some (path, .elem t a cs)) par cs
  | .document cs => collectF path 0 (some (path, .document cs)) par cs
  | _ => []

def collectF (parentPath : List ℕ) (i : ℕ)
    (par gpar : Option (List ℕ × HNode)) : HForest → List ScoreEntry
  | .nil => []
  | .cons c cs =>
      collectN (parentPath ++ [i]) par gpar c ++
      collectF parentPath (i + 1) par gpar cs

end

/-- A candidate: node identity (path) and accumulated float32 score. -/
abbrev Cand := List ℕ × Q

/-- Candidate-map lookup (first entry with the key, mirroring a Go map
keyed on node identity, which our paths make unique). -/
def candLookup : List Cand → List ℕ → Option Q
  | [], _ => none
  | c :: rest, k => if c.1 = k then some c.2 else candLookup rest k

def candEnsure (l : List Cand) (k : List ℕ) (base : Q) : List Cand :=
  if (candLookup l k).isSome then l else l ++ [(k, base)]

def candAdd (l : List Cand) (k : List ℕ) (v : Q) : List Cand :=
  l.map (fun c => if c.1 = k then (c.1, c.2.add v) else c)

/-- The local content increment: base 1, one per ASCII comma, one per
full-width comma, plus min(floor(codepoints/100), 3).  (In Go,
`count/100.0` divides two integers because the untyped constant takes
the int type, so this is floor division.) -/
def contentIncrement (text : String) : Q :=
  Q.ofInt (1 + (countChar ',' text : ℤ) + (countChar '，' text : ℤ) +
    ((min (runeCount text / 100) 3 : ℕ) : ℤ))

/-- One iteration of the scoring loop over an entry: skip short text,
lazily create parent/grandparent candidates with their `scoreNode` base,
then add the increment in full to the parent and halved to the
grandparent. -/
def scoreStep (minLen : ℕ) (cands : List Cand) (e : ScoreEntry) : List Cand :=
  if runeCount e.text < minLen then cands
  else
    let c1 := candEnsure cands e.parentPath (scoreNode e.parentNode)
    let c2 := match e.gp with
      | none => c1
      | some gpp => candEnsure c1 gpp.1 (scoreNode gpp.2)
    let c3 := candAdd c2 e.parentPath (contentIncrement e.text)
    match e.gp with
    | none => c3
    | some gpp => candAdd c3 gpp.1 (contentIncrement e.text).half

def buildCandidates (minLen : ℕ) (es : List ScoreEntry) : List Cand :=
  es.foldl (scoreStep minLen) []

/-- Rescaling pass: every candidate score is multiplied by
(1 − linkDensity of its node). -/
def rescale (t : HNode) (l : List Cand) : List Cand :=
  l.map (fun c =>
    (c.1,
      c.2.mul ((Q.ofInt 1).sub (getLinkDensity ((nodeAt t c.1).getD (.text ""))))))

/-- The candidate map of a session, in first-reference order, after
rescaling. -/
def candidatesOf (minLen : ℕ) (t : HNode) : List Cand :=
  let pt := preprocess t
  rescale pt (buildCandidates minLen (collectN [] none none pt))

/-! Selector. -/

/-- Fold of the best-candidate loop: keep the first strict maximum in
enumeration order. -/
def selectBest (l : List Cand) : Option Cand :=
  l.foldl
    (fun b c =>
      match b with
      | none => some c
      | some b0 => if b0.2.lt c.2 then some c else some b0)
    none

mutual

/-- `FindOne(root, "//body")`: first strict-descendant `<body>` element
in document order, returned as a path. -/
def findBodyN (path : List ℕ) : HNode → Option (List ℕ)
  | .elem _ _ cs => findBodyF path 0 cs
  | .document cs => findBodyF path 0 cs
  | _ => none

def findBodyF (parentPath : List ℕ) (i : ℕ) : HForest → Option (List ℕ)
  | .nil => none
  | .cons c cs =>
      match c with
      | .elem "body" _ _ => some (parentPath ++ [i])
      | _ =>
          match findBodyN (parentPath ++ [i]) c with
          | some r => some r
          | none => findBodyF parentPath (i + 1) cs

end

def findBody (t : HNode) : Option (List ℕ) := findBodyN [] t

/-- The best candidate of the map, or the `<body>` fallback with score 0
when the map is empty; `none` when even the fallback is impossible (no
body at all — the Go code would dereference nil there). -/
def bestWithFallback (pt : HNode) (cands : List Cand) : Option Cand :=
  match selectBest cands with
  | some b => some b
  | none => (findBody pt).map (fun p => (p, Q.ofInt 0))

/-- The sibling-admission decision exactly as the Go control flow sets
the `canAppend` flag: the best/score disjunction first, then the `<p>`
special case which ASSIGNS (not ORs) the flag in its two branches. -/
def canAppendCode (isBest scoreOK : Bool) (tag : String) (len : ℕ) (ld : Q)
    (sentence : Bool) : Bool :=
  let a0 := isBest || scoreOK
  if tag = "p" then
    if 80 ≤ len ∧ ld.lt ⟨1, 4⟩ then true
    else if len < 80 ∧ ld.isZero then sentence
    else a0
  else a0

def scoreOKOf (cands : List Cand) (thr : Q) (path : List ℕ) : Bool :=
  match candLookup cands path with
  | some s => thr.le s
  | none => false

def canAppendNode (cands : List Cand) (thr : Q) (bestPath path : List ℕ)
    (n : HNode) : Bool :=
  canAppendCode (path == bestPath) (scoreOKOf cands thr path) n.data
    (runeCount (innerText n)) (getLinkDensity n) (sentenceMatch (innerText n))

def enumChildren (parentPath : List ℕ) (i : ℕ) :
    HForest → List (List ℕ × HNode)
  | .nil => []
  | .cons c cs => (parentPath ++ [i], c) :: enumChildren parentPath (i + 1) cs

/-- All children of the best node's parent, with their paths, in
document order (`best.node.Parent.FirstChild` and its next-sibling
chain, which includes text and comment siblings). -/
def siblingEntries (pt : HNode) (bestPath : List ℕ) : List (List ℕ × HNode) :=
  let parentPath := bestPath.dropLast
  match nodeAt pt parentPath with
  | none => []
  | some parent => enumChildren parentPath 0 parent.childrenOf

/-- The sibling threshold max(10, bestScore · 0.2). -/
def siblingThreshold (bestScore : Q) : Q :=
  let s5 := bestScore.mul ⟨1, 5⟩
  if (Q.ofInt 10).lt s5 then s5 else Q.ofInt 10

/-- Selection phase given a preprocessed tree and an enumeration of the
candidate map: `none` models the nil dereference when no best node can
be found or the best node has no parent. -/
def selectionCore (pt : HNode) (cands : List Cand) :
    Option (List (List ℕ × HNode)) :=
  match bestWithFallback pt cands with
  | none => none
  | some b =>
      if b.1 = [] then none
      else
        let thr := siblingThreshold b.2
        some ((siblingEntries pt b.1).filter
          (fun e => canAppendNode cands thr b.1 e.1 e.2))

/-! Sanitizer (the part_000 variant, which works directly on the list of
admitted nodes). -/

def headerTags : List String := ["h1", "h2", "h3", "h4", "h5", "h6", "h7"]

def interactiveTags : List String :=
  ["input", "select", "textarea", "button", "object", "iframe", "embed"]

/-- First sanitize pass on an admitted node: drop suspicious headers and
interactive elements. -/
def keepHeaderPass (n : HNode) : Bool :=
  if n.data ∈ headerTags then
    !(classWeight n < 0 ∨ Q.lt ⟨33, 100⟩ (getLinkDensity n))
  else !(n.data ∈ interactiveTags)

mutual

/-- Number of strict-descendant elements satisfying a tag/attribute
predicate (the `len(htmlquery.Find(n, selector))` counters). -/
def countDesc (pred : String → List (String × String) → Bool) : HNode → ℕ
  | .elem _ _ cs => countDescF pred cs
  | .document cs => countDescF pred cs
  | _ => 0

def countDescF (pred : String → List (String × String) → Bool) : HForest → ℕ
  | .nil => 0
  | .cons c cs =>
      (match c with
       | .elem t a _ => if pred t a then 1 else 0
       | _ => 0) + countDesc pred c + countDescF pred cs

end

def hasAttr (attrs : List (String × String)) (key : String) : Bool :=
  (attrs.find? (fun a => a.1 == key)).isSome

/-- The conditional-cleaning removal decision for a `<table>`, `<ul>` or
`<div>`: negative class weight removes outright; otherwise, with fewer
than 10 comma-like characters, the battery of density heuristics.
`contentLength` is the byte length of the trimmed text (Go `len`),
`input > p/3` is integer division. -/
def cleanCondShouldRemove (minLen : ℕ) (n : HNode) : Bool :=
  let weight := classWeight n
  if weight < 0 then true
  else
    let text := innerText n
    if countChar ',' text + countChar '，' text < 10 then
      let p := countDesc (fun t _ => t = "p" ∨ t = "br") n
      let img := countDesc (fun t _ => t = "img") n
      let li : ℤ := (countDesc (fun t _ => t = "li") n : ℤ) - 100
      let embed := countDesc (fun t a => t = "embed" ∧ hasAttr a "src") n
      let input := countDesc (fun t _ => t = "input") n
      let contentLength := byteLen (goTrim text)
      let ld := getLinkDensity n
      if img > p ∧ img > 1 then true
      else if li > (p : ℤ) ∧ n.data ≠ "ul" ∧ n.data ≠ "ol" then true
      else if input > p / 3 then true
      else if contentLength < minLen ∧ (img = 0 ∨ img > 2) then true
      else if weight < 25 ∧ Q.lt ⟨1, 5⟩ ld then true
      else if 25 ≤ weight ∧ Q.lt ⟨1, 2⟩ ld then true
      else if (embed = 1 ∧ contentLength < 75) ∨ embed > 1 then true
      else false
    else false

/-- Second sanitize pass on an admitted node: conditional cleaning of
tables, lists and divs. -/
def keepCondPass (minLen : ℕ) (n : HNode) : Bool :=
  if n.data = "table" ∨ n.data = "ul" ∨ n.data = "div" then
    !cleanCondShouldRemove minLen n
  else true

def selfClosingTags : List String :=
  ["area", "base", "embed", "iframe", "input", "link", "meta", "param",
   "source", "track", "hr", "img", "br"]

/-- A synthetic paragraph created by the preprocessor
(`isFakeElement`). -/
def isFakeP (n : HNode) : Bool :=
  n.data = "p" &&
    n.attrsOf.any (fun a => a.1 = "class" ∧ a.2 = "readability-styled")

/-- ` key="value"` attribute rendering of the serializers. -/
def attrString (attrs : List (String × String)) : String :=
  attrs.foldl (fun acc a => acc ++ " " ++ a.1 ++ "=\"" ++ a.2 ++ "\"") ""

mutual

/-- The part_000 output serializer `fn`: text raw, comments skipped,
fake paragraphs unwrapped, every other element emitted with ALL of its
attributes (this variant has no allow-list). -/
def fnP0 : HNode → String
  | .text s => s
  | .comment _ => ""
  | .elem t a cs =>
      let faked := isFakeP (.elem t a cs)
      (if faked then ""
       else "<" ++ t ++ attrString a ++
            (if t ∈ selfClosingTags then "/>" else ">")) ++
      fnP0F cs ++
      (if !faked && !(t ∈ selfClosingTags) then "</" ++ t ++ ">" else "")
  | .document cs => "<" ++ ">" ++ fnP0F cs ++ "</" ++ ">"

def fnP0F : HForest → String
  | .nil => ""
  | .cons c cs => fnP0 c ++ fnP0F cs

end

/-- Character class of Go regexp `\s`. -/
def isReSpace (c : Char) : Bool :=
  c = ' ' ∨ c = '\t' ∨ c = '\n' ∨ c = '\r' ∨ c.val = 12

def isNLChar (c : Char) : Bool := c = '\r' ∨ c = '\n'

/-- `normalizeWhitespaceRegexp` (`\s{2,}` → " "), fuelled so concrete
runs reduce in the kernel. -/
def normWSFuel : ℕ → List Char → List Char
  | 0, l => l
  | _ + 1, [] => []
  | f + 1, c :: rest =>
      if isReSpace c then
        match rest with
        | d :: _ =>
            if isReSpace d then ' ' :: normWSFuel f (rest.dropWhile isReSpace)
            else c :: normWSFuel f rest
        | [] => [c]
      else c :: normWSFuel f rest

/-- `normalizeCRLFRegexp` (`(\r\n|\r|\n)+` → "\n"). -/
def normNLFuel : ℕ → List Char → List Char
  | 0, l => l
  | _ + 1, [] => []
  | f + 1, c :: rest =>
      if isNLChar c then '\n' :: normNLFuel f (rest.dropWhile isNLChar)
      else c :: normNLFuel f rest

/-- Final text normalization of part_000's sanitize. -/
def normalizeOut (s : String) : String :=
  let l1 := normWSFuel (s.length + 1) s.toList
  ⟨normNLFuel (l1.length + 1) l1⟩

/-- part_000's `sanitize`: header/interactive filtering, conditional
cleaning, then serialization of the CHILDREN of each surviving node,
followed by whitespace normalization; the empty list yields "". -/
def sanitizeList (minLen : ℕ) (nodes : List HNode) : String :=
  let b := nodes.filter keepHeaderPass
  let c := b.filter (keepCondPass minLen)
  if c = [] then ""
  else normalizeOut ((c.map (fun n => fnP0F n.childrenOf)).foldl (· ++ ·) "")

/-! End-to-end content extraction (part_000 pipeline), parameterized by
the enumeration order of the candidate map — Go ranges over a hash map,
whose order varies between runs; `parseContentP0` uses the
first-reference order as its canonical enumeration. -/

def contentWithOrder (minLen : ℕ) (t : HNode) (ord : List Cand) :
    Option String :=
  (selectionCore (preprocess t) ord).map
    (fun sel => sanitizeList minLen (sel.map (fun e => e.2)))

def parseContentP0 (minLen : ℕ) (t : HNode) : Option String :=
  contentWithOrder minLen t (candidatesOf minLen t)

def selectionOf (minLen : ℕ) (t : HNode) : Option (List (List ℕ × HNode)) :=
  selectionCore (preprocess t) (candidatesOf minLen t)

/-! Memoizing session (readability.go `Document` with its
`contentOnce sync.Once`): `content` caches the outcome of the first
computation (`none` models a run the Go code would abort in), and
`parseContent` mutates the tree it reads, which is why the second call
must not recompute. -/

structure DocState where
  root : HNode
  content : Option String
  contentDone : Bool
  deriving DecidableEq

/-- One call of `Content()`: the returned value, the state after the
call, and how many times the underlying `parseContent` ran during the
call. -/
def contentCall (d : DocState) : Option String × DocState × ℕ :=
  if d.contentDone then (d.content, d, 0)
  else
    let r := parseContentP0 minTextLengthDefault d.root
    (r, ⟨preprocess d.root, r, true⟩, 1)

/-! Sanitizer of readability.go: its serializer enforces the tag and
attribute allow-lists.  It runs on a re-parsed document tree; we embed
the passes on an already-parsed tree. -/

def allowedHTMLTag : List String :=
  ["embed", "figure", "div", "img", "p", "br", "a", "font",
   "h1", "h2", "h3", "h4", "h5", "h6", "span", "strong"]

def allowedAttrKeys : List String := ["src", "href"]

/-- URL rewriting applies to img src, a href and "embed " src (the Go
comparison carries a trailing space, faithfully kept); the resolver
abstracts `d.respURL.Parse` and is the identity when no base URL is
set. -/
def resolveFor (resolve : String → String) (tag key v : String) : String :=
  if (tag = "img" ∧ key = "src") ∨ (tag = "a" ∧ key = "href") ∨
     (tag = "embed " ∧ key = "src") then resolve v
  else v

/-- The attributes the readability.go serializer emits for an element:
allow-listed keys only, in order, with URL rewriting applied. -/
def emittedAttrs (resolve : String → String) (tag : String)
    (attrs : List (String × String)) : List (String × String) :=
  (attrs.filter (fun kv => kv.1 ∈ allowedAttrKeys)).map
    (fun kv => (kv.1, resolveFor resolve tag kv.1 kv.2))

mutual

/-- The readability.go output serializer `fn`: text raw, comments and
non-allow-listed elements skipped with their whole subtree, fake
paragraphs unwrapped (their emitted attributes still leak as bare text,
as in the source), allow-listed attributes only. -/
def sanRender (resolve : String → String) : HNode → String
  | .text s => s
  | .comment _ => ""
  | .document _ => ""
  | .elem t a cs =>
      if t ∈ allowedHTMLTag then
        let faked := isFakeP (.elem t a cs)
        (if faked then "" else "<" ++ t) ++
        attrString (emittedAttrs resolve t a) ++
        (if faked then ""
         else if t ∈ selfClosingTags then "/>" else ">") ++
        sanRenderF resolve cs ++
        (if !faked && !(t ∈ selfClosingTags) then "</" ++ t ++ ">" else "")
      else ""

def sanRenderF (resolve : String → String) : HForest → String
  | .nil => ""
  | .cons c cs => sanRender resolve c ++ sanRenderF resolve cs

end

/-- Serialization events of the readability.go serializer. -/
inductive STok where
  | txt (s : String)
  | openTag (tag : String) (attrs : List (String × String)) (self : Bool)
  | closeTag (tag : String)
  | bareAttrs (attrs : List (String × String))
  deriving DecidableEq, Repr

def renderTok : STok → String
  | .txt s => s
  | .openTag t attrs self =>
      "<" ++ t ++ attrString attrs ++ (if self then "/>" else ">")
  | .closeTag t => "</" ++ t ++ ">"
  | .bareAttrs attrs => attrString attrs

def renderToks (l : List STok) : String := (l.map renderTok).foldl (· ++ ·) ""

mutual

/-- The event stream of `sanRender`. -/
def sanToks (resolve : String → String) : HNode → List STok
  | .text s => [.txt s]
  | .comment _ => []
  | .document _ => []
  | .elem t a cs =>
      if t ∈ allowedHTMLTag then
        let faked := isFakeP (.elem t a cs)
        (if faked then [.bareAttrs (emittedAttrs resolve t a)]
         else [.openTag t (emittedAttrs resolve t a) (t ∈ selfClosingTags)]) ++
        sanToksF resolve cs ++
        (if !faked && !(t ∈ selfClosingTags) then [.closeTag t] else [])
      else []

def sanToksF (resolve : String → String) : HForest → List STok
  | .nil => []
  | .cons c cs => sanToks resolve c ++ sanToksF resolve cs

end

/-- An event respects the allow-lists: opened tags come from
`AllowedHTMLTag` and every emitted attribute key from
`AllowedTMLTagAttrs`. -/
def tokAllowed : STok → Prop
  | .txt _ => True
  | .openTag t attrs _ =>
      t ∈ allowedHTMLTag ∧ ∀ kv ∈ attrs, kv.1 ∈ allowedAttrKeys
  | .closeTag t => t ∈ allowedHTMLTag
  | .bareAttrs attrs => ∀ kv ∈ attrs, kv.1 ∈ allowedAttrKeys

/-! Raw HTML rendering (golang.org/x/net/html `Render`), used by the
`htmlquery.OutputHTML(node, false)` fallback when the whitelist
serialization is empty. -/

def voidElements : List String :=
  ["area", "base", "br", "col", "embed", "hr", "img", "input", "keygen",
   "link", "meta", "param", "source", "track", "wbr"]

/-- `html.EscapeString` on the five escaped characters. -/
def escapeHTML (s : String) : String :=
  s.toList.foldl
    (fun acc c =>
      acc ++
      (if c = '&' then "&amp;"
       else if c.val = 39 then "&#39;"
       else if c = '<' then "&lt;"
       else if c = '>' then "&gt;"
       else if c.val = 34 then "&#34;"
       else String.singleton c)) ""

def renderAttrsEsc (attrs : List (String × String)) : String :=
  attrs.foldl
    (fun acc a => acc ++ " " ++ a.1 ++ "=\"" ++ escapeHTML a.2 ++ "\"") ""

mutual

/-- `html.Render` (escaping text and attribute values; a void element
with children makes Render abort after the attributes — the caller
ignores the error, keeping the partial output). -/
def renderFull : HNode → String
  | .text s => escapeHTML s
  | .comment s => "<!--" ++ s ++ "-->"
  | .document cs => renderFullF cs
  | .elem t a cs =>
      "<" ++ t ++ renderAttrsEsc a ++
      (if t ∈ voidElements then
        (match cs with
         | .nil => "/>"
         | _ => "")
       else ">" ++ renderFullF cs ++ "</" ++ t ++ ">")

def renderFullF : HForest → String
  | .nil => ""
  | .cons c cs => renderFull c ++ renderFullF cs

end

mutual

/-- First strict-descendant element satisfying the predicate, in
document order (`htmlquery.FindOne`). -/
def findElemN (pred : String → List (String × String) → Bool) :
    HNode → Option HNode
  | .elem _ _ cs => findElemF pred cs
  | .document cs => findElemF pred cs
  | _ => none

def findElemF (pred : String → List (String × String) → Bool) :
    HForest → Option HNode
  | .nil => none
  | .cons c cs =>
      match c with
      | .elem t a _ =>
          if pred t a then some c
          else
            match findElemN pred c with
            | some r => some r
            | none => findElemF pred cs
      | _ =>
          match findElemN pred c with
          | some r => some r
          | none => findElemF pred cs

end

/-- Pass 1 removal test of readability.go's sanitize. -/
def dropPassA (n : HNode) : Bool :=
  if n.data ∈ headerTags then
    decide (classWeight n < 0) || Q.lt ⟨33, 100⟩ (getLinkDensity n)
  else n.data ∈ interactiveTags

/-- `cleanConditionally(doc, "table", "ul", "div")` removal test. -/
def dropPassB (minLen : ℕ) (n : HNode) : Bool :=
  (n.data = "table" ∨ n.data = "ul" ∨ n.data = "div") &&
    cleanCondShouldRemove minLen n

mutual

/-- Remove every element matching the predicate, subtree included
(document-order removal with the lazy iterator is equivalent to this
top-down filtering, since mutation inside a detached subtree is
invisible). -/
def dropElems (pred : HNode → Bool) : HNode → HNode
  | .elem t a cs => .elem t a (dropElemsF pred cs)
  | .document cs => .document (dropElemsF pred cs)
  | n => n

def dropElemsF (pred : HNode → Bool) : HForest → HForest
  | .nil => .nil
  | .cons c cs =>
      match c with
      | .elem t a ccs =>
          if pred (.elem t a ccs) then dropElemsF pred cs
          else .cons (.elem t a (dropElemsF pred ccs)) (dropElemsF pred cs)
      | other => .cons other (dropElemsF pred cs)

end

/-- The `<body>` of the content document after the two cleaning
passes. -/
def cleanedBody (minLen : ℕ) (doc : HNode) : Option HNode :=
  findElemN (fun t _ => t = "body")
    (dropElems (dropPassB minLen) (dropElems dropPassA doc))

/-- readability.go `sanitize` on an (already parsed) content document:
header/interactive pruning, conditional cleaning, whitelist
serialization of the `<body>` children with the raw-HTML fallback when
that serialization is empty, then whitespace normalization.  `none`
models the nil dereference when the document has no body. -/
def sanitizeDoc (resolve : String → String) (minLen : ℕ) (doc : HNode) :
    Option String :=
  match cleanedBody minLen doc with
  | none => none
  | some body =>
      let text := sanRenderF resolve body.childrenOf
      let text2 := if text = "" then renderFullF body.childrenOf else text
      some (normalizeOut text2)

/-! Title resolver. -/

/-- Raw title: content of the first og:title/twitter:title meta if such
a meta exists (even with a missing content attribute), else the text of
the first `<title>`, else "". -/
def rawTitle (t : HNode) : String :=
  match findElemN
      (fun tag a =>
        tag = "meta" ∧
          (selectAttr a "property" = "og:title" ∨
           selectAttr a "name" = "twitter:title")) t with
  | some n => selectAttr n.attrsOf "content"
  | none =>
      match findElemN (fun tag _ => tag = "title") t with
      | some n => innerText n
      | none => ""

def titleSeps : List String := [" | ", " _ ", " - ", "«", "»", "—"]

/-- Whether `strings.Split(s, sep)` has more than one element, for a
non-empty separator: the separator occurs in `s`. -/
def splitsOn (sep s : String) : Bool := containsSub s sep

/-- Prefix of `s` before the first occurrence of the pattern. -/
def beforeFirstL (p : List Char) : List Char → List Char
  | [] => []
  | c :: rest =>
      if p.isPrefixOf (c :: rest) then []
      else c :: beforeFirstL p rest

def beforeFirst (sep s : String) : String := ⟨beforeFirstL sep.toList s.toList⟩

/-- The separator loop of `parseTitle`: `bt` is the running
`betterTitle`; a separator that splits while `bt` is non-empty flags a
conflict (`betterTitle = title` and break). -/
def refineLoop (title : String) : List String → String → String
  | [], bt => bt
  | sep :: rest, bt =>
      if splitsOn sep title then
        if bt ≠ "" then title
        else refineLoop title rest (goTrim (beforeFirst sep title))
      else refineLoop title rest bt

/-- `parseTitle`: the refined title when its BYTE length exceeds 10,
else the raw title. -/
def parseTitle (t : HNode) : String :=
  let title := rawTitle t
  let bt := refineLoop title titleSeps ""
  if byteLen bt > 10 then bt else title

/-! Pointer-level node store, for the `removeNodes` mutation
(readability.go lines 513-526).  Nodes are indices into a finite store;
each carries the five links of a Go html.Node. -/

structure PNode where
  parent : Option ℕ
  prevSibling : Option ℕ
  nextSibling : Option ℕ
  firstChild : Option ℕ
  lastChild : Option ℕ
  deriving DecidableEq, Repr

abbrev Store := List PNode

def getN (s : Store) (i : ℕ) : Option PNode := s.get? i

def updateAt (f : PNode → PNode) : ℕ → Store → Store
  | _, [] => []
  | 0, x :: xs => f x :: xs
  | i + 1, x :: xs => x :: updateAt f i xs

def parentOf (s : Store) (i : ℕ) : Option ℕ := (getN s i).bind (fun x => x.parent)

def nextOf (s : Store) (i : ℕ) : Option ℕ := (getN s i).bind (fun x => x.nextSibling)

def prevOf (s : Store) (i : ℕ) : Option ℕ := (getN s i).bind (fun x => x.prevSibling)

def firstChildOf (s : Store) (i : ℕ) : Option ℕ := (getN s i).bind (fun x => x.firstChild)

def lastChildOf (s : Store) (i : ℕ) : Option ℕ := (getN s i).bind (fun x => x.lastChild)

/-- First statement of `removeNodes`: `if n.NextSibling != nil {
n.NextSibling.PrevSibling = n.PrevSibling }` (pn is the snapshot of
n's links). -/
def rnStage1 (s : Store) (pn : PNode) : Store :=
  match pn.nextSibling with
  | some ns => updateAt (fun x => { x with prevSibling := pn.prevSibling }) ns s
  | none => s

/-- Second statement: `if n.PrevSibling != nil {
n.PrevSibling.NextSibling = n.NextSibling }`. -/
def rnStage2 (s : Store) (pn : PNode) : Store :=
  match pn.prevSibling with
  | some ps => updateAt (fun x => { x with nextSibling := pn.nextSibling }) ps (rnStage1 s pn)
  | none => rnStage1 s pn

/-- Third statement: `if n.Parent.FirstChild == n { n.Parent.FirstChild
= n.NextSibling }`. -/
def rnStage3 (s : Store) (pn : PNode) (n par : ℕ) : Store :=
  match getN (rnStage2 s pn) par with
  | none => rnStage2 s pn
  | some pp =>
      if pp.firstChild = some n then
        updateAt (fun x => { x with firstChild := pn.nextSibling }) par (rnStage2 s pn)
      else rnStage2 s pn

/-- `removeNodes`: fix the two sibling links around `n` and the parent's
FirstChild when it was `n`; nothing else (notably: `n.Parent`, the
parent's LastChild and `n`'s own sibling links are left as they
were). -/
def removeNodesP (s : Store) (n : ℕ) : Store :=
  match getN s n with
  | none => s
  | some pn =>
      match pn.parent with
      | none => s
      | some par => rnStage3 s pn n par

/-- Forward child traversal (FirstChild / NextSibling chain), fuelled by
the store size. -/
def chainFrom (s : Store) : ℕ → Option ℕ → List ℕ
  | 0, _ => []
  | _, none => []
  | fuel + 1, some i => i :: chainFrom s fuel (nextOf s i)

def childList (s : Store) (a : ℕ) : List ℕ :=
  chainFrom s s.length (firstChildOf s a)

/-! The sibling-admission decision restated declaratively: the `<p>`
special case takes precedence (its second branch OVERRIDES the
best-node/score admission rather than extending it); outside the two
`<p>` branches the best/score disjunction decides. -/

def canAppendSpec (isBest scoreOK : Bool) (tag : String) (len : ℕ) (ld : Q)
    (sentence : Bool) : Bool :=
  if tag = "p" ∧ 80 ≤ len ∧ ld.lt ⟨1, 4⟩ then true
  else if tag = "p" ∧ len < 80 ∧ ld.isZero then sentence
  else isBest || scoreOK

/-- First separator of the ordered set that splits a title. -/
def firstSplitSep (title : String) : Option String :=
  titleSeps.find? (fun sep => splitsOn sep title)

/-! Concrete inputs used as counterexamples and witnesses. -/

def nf : List HNode → HForest := HForest.ofList

/-- A document whose best candidate is a `<p>` with short,
sentence-terminator-free text and zero link density: the `<td>` inside
scores its parent `<p>` (boosted by an itemtype attribute) above the
`<body>`. -/
def c1tree : HNode :=
  .document (nf [.elem "html" [] (nf [.elem "body" [] (nf [
    .elem "p" [("itemtype", "x")] (nf [
      .elem "td" [] (nf [.text "abcdefghijklmnopqrstuvwxyz abcd"])])])])])

/-- The entry of the best node of `c1tree` among its parent's
children. -/
def c1bestEntry : List ℕ × HNode :=
  ([0, 0, 0],
   .elem "p" [("itemtype", "x")] (nf [
     .elem "td" [] (nf [.text "abcdefghijklmnopqrstuvwxyz abcd"])]))

/-- A document with no `<p>`/`<td>` at all whose inner `<div>` is
renamed to `<p>` by div normalization and then scores its parent div. -/
def c3tree : HNode :=
  .document (nf [.elem "html" [] (nf [.elem "body" [] (nf [
    .elem "div" [] (nf [
      .elem "div" [] (nf [.text "abcdefghijklmnopqrstuvwxyz abc"])])])])])

/-- A document with no scoring candidates at all (text directly under
body). -/
def c3fallbackTree : HNode :=
  .document (nf [.elem "html" [] (nf [.elem "body" [] (nf [.text "hi"])])])

/-- Store with parent A=0 and children B=1, C=2 (C is the last
child). -/
def c4store : Store :=
  [⟨none, none, none, some 1, some 2⟩,
   ⟨some 0, none, some 2, none, none⟩,
   ⟨some 0, some 1, none, none, none⟩]

/-- A selection whose only node is a `<ul>` with ten commas: the
whitelist serializer emits nothing for it, so sanitize falls back to
the raw serialization. -/
def c5doc : HNode :=
  .document (nf [.elem "html" [] (nf [.elem "body" [] (nf [
    .elem "ul" [] (nf [.elem "li" [] (nf [
      .text "a,b,c,d,e,f,g,h,i,j,k and some more text"])])])])])

def c5out : String := "<ul><li>a,b,c,d,e,f,g,h,i,j,k and some more text</li></ul>"

/-- A selection document whose whitelist serialization is non-empty. -/
def c5okDoc : HNode :=
  .document (nf [.elem "html" [] (nf [.elem "body" [] (nf [
    .elem "p" [] (nf [.text "hello world"])])])])

/-- Nested qualifying anchors: both count their full innerText, so the
link length (4) exceeds the text length (2). -/
def c7tree : HNode :=
  .elem "div" [] (nf [.elem "a" [("href", "u")] (nf [
    .elem "a" [("href", "v")] (nf [.text "ab"])])])

/-- A node with a single, non-nested anchor. -/
def c7okTree : HNode :=
  .elem "div" [] (nf [.elem "a" [("href", "u")] (nf [.text "ab"]),
    .text "cdef"])

/-- Title splitting under both "«" and "»", where the earlier separator
yields an empty first segment. -/
def c8tree : HNode :=
  .document (nf [.elem "html" [] (nf [.elem "head" [] (nf [
    .elem "title" [] (nf [.text "«A very long something»suffix"])])])])

/-- Title with a single splitting separator and a long first segment. -/
def c8okTree : HNode :=
  .document (nf [.elem "html" [] (nf [.elem "head" [] (nf [
    .elem "title" [] (nf [.text "Foo Bar Bazz | Site"])])])])

/-- Two sibling divs with identical scores (30 chars of text each, held
in a span so the div is not lifted): the candidate map has a tie at the
top and the selected best depends on the enumeration order. -/
def c9tree : HNode :=
  .document (nf [.elem "html" [] (nf [.elem "body" [] (nf [
    .elem "div" [] (nf [.elem "p" [] (nf [.elem "span" [] (nf [
      .text "aaaaaaaaaaaaaaaaaaaaaaaaaaaaaa"])])]),
    .elem "div" [] (nf [.elem "p" [] (nf [.elem "span" [] (nf [
      .text "bbbbbbbbbbbbbbbbbbbbbbbbbbbbbb"])])])])])])

/-- Like `c9tree` but with a unique top candidate (the first paragraph
has a comma, scoring its div higher). -/
def c9uniqTree : HNode :=
  .document (nf [.elem "html" [] (nf [.elem "body" [] (nf [
    .elem "div" [] (nf [.elem "p" [] (nf [.elem "span" [] (nf [
      .text "aaaaaaaaaaaaaa,aaaaaaaaaaaaaaa"])])]),
    .elem "div" [] (nf [.elem "p" [] (nf [.elem "span" [] (nf [
      .text "bbbbbbbbbbbbbbbbbbbbbbbbbbbbbb"])])])])])])

/-- A witness scoring entry: 31 codepoints of text with one comma,
parent body, grandparent html. -/
def c6entry : ScoreEntry :=
  ⟨[0, 0], .elem "body" [] .nil, some ([0], .elem "html" [] .nil),
   "abcdefghijklm,nopqrstuvwxyz abc"⟩

/-- A `<table>` with three images, no paragraphs and short text. -/
def c10table : HNode :=
  .elem "table" [] (nf [.elem "tr" [] (nf [.elem "td" [] (nf [
    .elem "img" [("src", "a")] .nil,
    .elem "img" [("src", "b")] .nil,
    .elem "img" [("src", "c")] .nil,
    .text "xy"])])])

/-! Theorems. -/

theorem canAppendCode_eq_spec (isBest scoreOK : Bool) (tag : String)
    (len : ℕ) (ld : Q) (sentence : Bool) :
    canAppendCode isBest scoreOK tag len ld sentence =
      canAppendSpec isBest scoreOK tag len ld sentence := by
  unfold canAppendCode canAppendSpec
  split_ifs <;> simp_all

/-- Claim C1, counterexample: in `c1tree` the best candidate is the `<p>` at
path [0,0,0]; it is among the iterated siblings of its parent, so the
claim's first disjunct (n IS the best node) demands admission — yet the
Selection Result is empty: the `<p>` special case overwrote the
admission flag. -/
theorem c1_counterexample :
    bestWithFallback (preprocess c1tree) (candidatesOf 25 c1tree) =
      some ([0, 0, 0], ⟨961, 31⟩) ∧
    c1bestEntry ∈ siblingEntries (preprocess c1tree) [0, 0, 0] ∧
    selectionOf 25 c1tree = some [] := by
  refine ⟨by decide, by decide, by decide⟩

/-- Claim C1, amended: a sibling enters the Selection Result iff the
declarative precedence form of the admission test holds: a `<p>` with
length ≥ 80 and link density < 0.25 is admitted; otherwise a `<p>` with
length < 80 and link density exactly 0 is admitted exactly when its text
has a sentence terminator — this branch OVERRIDES the best-node/score
disjuncts; in every other case the node is admitted iff it is the best
node or its recorded candidate score reaches the threshold. -/
theorem c1_amended (pt : HNode) (cands : List Cand) (b : Cand)
    (hb : bestWithFallback pt cands = some b) (hroot : b.1 ≠ [])
    (e : List ℕ × HNode) :
    e ∈ (selectionCore pt cands).getD [] ↔
      (e ∈ siblingEntries pt b.1 ∧
        canAppendSpec (e.1 == b.1)
          (scoreOKOf cands (siblingThreshold b.2) e.1) e.2.data
          (runeCount (innerText e.2)) (getLinkDensity e.2)
          (sentenceMatch (innerText e.2)) = true) := by
  unfold selectionCore
  rw [hb]
  simp only [if_neg hroot, Option.getD_some, List.mem_filter]
  unfold canAppendNode
  rw [canAppendCode_eq_spec]

theorem c1_amended_witness :
    bestWithFallback (preprocess c1tree) (candidatesOf 25 c1tree) =
      some ([0, 0, 0], ⟨961, 31⟩) ∧
    (([0, 0, 0] : List ℕ) ≠ []) ∧
    (c1bestEntry ∈ (selectionCore (preprocess c1tree) (candidatesOf 25 c1tree)).getD [] ↔
      (c1bestEntry ∈ siblingEntries (preprocess c1tree) [0, 0, 0] ∧
        canAppendSpec (c1bestEntry.1 == [0, 0, 0])
          (scoreOKOf (candidatesOf 25 c1tree)
            (siblingThreshold ⟨961, 31⟩) c1bestEntry.1) c1bestEntry.2.data
          (runeCount (innerText c1bestEntry.2)) (getLinkDensity c1bestEntry.2)
          (sentenceMatch (innerText c1bestEntry.2)) = true)) :=
  ⟨by decide, by decide,
    c1_amended (preprocess c1tree) (candidatesOf 25 c1tree)
      ([0, 0, 0], ⟨961, 31⟩) (by decide) (by decide) c1bestEntry⟩

/-- Claim C2: calling `Content()` twice on the same session returns the
identical result, and the underlying `parseContent` runs at most once
across the two calls — the second call returns the cached value. -/
theorem c2_content_memoized (d : DocState) :
    (contentCall (contentCall d).2.1).1 = (contentCall d).1 ∧
    (contentCall d).2.2 + (contentCall (contentCall d).2.1).2.2 ≤ 1 := by
  by_cases h : d.contentDone
  · simp [contentCall, h]
  · simp [contentCall, h]

/-- Claim C3, counterexample: `c3tree` contains no `<p>` or `<td>` element at
all, yet the candidate map is NOT empty (div normalization renames its
inner div to `<p>`, which then scores) and the Selector picks the outer
div at [0,0,0], not the `<body>` at [0,0]: the body fallback does not
engage for this no-`<p>`/`<td>` document. -/
theorem c3_counterexample :
    countDesc (fun t _ => t = "p" ∨ t = "td") c3tree = 0 ∧
    candidatesOf 25 c3tree ≠ [] ∧
    bestWithFallback (preprocess c3tree) (candidatesOf 25 c3tree) =
      some ([0, 0, 0], ⟨180, 30⟩) ∧
    findBody (preprocess c3tree) = some [0, 0] ∧
    ([0, 0, 0] : List ℕ) ≠ [0, 0] :=
  ⟨by decide, by decide, by decide, by decide, by decide⟩

/-- Claim C3, amended: whenever the candidate map produced by scoring the
preprocessed tree is actually empty, the Selector falls back to the
document's `<body>` with score 0, and — provided that body exists below
the root, as in every parsed document — the remaining steps complete and
return a string. -/
theorem c3_amended (minLen : ℕ) (t : HNode) (bp : List ℕ)
    (hc : candidatesOf minLen t = [])
    (hbody : findBody (preprocess t) = some bp) (hbp : bp ≠ []) :
    bestWithFallback (preprocess t) (candidatesOf minLen t) =
      some (bp, Q.ofInt 0) ∧
    ∃ s, parseContentP0 minLen t = some s := by
  have hbest : bestWithFallback (preprocess t) (candidatesOf minLen t) =
      some (bp, Q.ofInt 0) := by
    unfold bestWithFallback
    rw [hc]
    simp [selectBest, hbody]
  refine ⟨hbest, ?_⟩
  unfold parseContentP0 contentWithOrder selectionCore
  rw [hbest]
  simp [hbp]

theorem c3_amended_witness :
    candidatesOf 25 c3fallbackTree = [] ∧
    findBody (preprocess c3fallbackTree) = some [0, 0] ∧
    (([0, 0] : List ℕ) ≠ []) ∧
    (bestWithFallback (preprocess c3fallbackTree) (candidatesOf 25 c3fallbackTree) =
      some ([0, 0], Q.ofInt 0) ∧
     ∃ s, parseContentP0 25 c3fallbackTree = some s) :=
  ⟨by decide, by decide, by decide,
    c3_amended 25 c3fallbackTree [0, 0] (by decide) (by decide) (by decide)⟩

mutual

theorem anchorFree_linkLen : ∀ n : HNode, anchorFree n = true → linkLen n = 0 := by
  intro n
  cases n with
  | elem t a cs => exact fun h => anchorFreeF_linkLenF cs (by simpa [anchorFree] using h)
  | document cs => exact fun h => anchorFreeF_linkLenF cs (by simpa [anchorFree] using h)
  | text s => intro _; rfl
  | comment s => intro _; rfl

theorem anchorFreeF_linkLenF : ∀ f : HForest, anchorFreeF f = true → linkLenF f = 0 := by
  intro f
  cases f with
  | nil => intro _; rfl
  | cons c cs =>
      intro h
      simp only [anchorFreeF, Bool.and_eq_true] at h
      obtain ⟨⟨h1, h2⟩, h3⟩ := h
      simp only [Bool.not_eq_true'] at h1
      simp only [linkLenF, anchorFree_linkLen c h2, anchorFreeF_linkLenF cs h3]
      simp [h1]

end

mutual

theorem noNested_linkLen_le :
    ∀ n : HNode, noNestedAnchors n = true → linkLen n ≤ (innerText n).length := by
  intro n
  cases n with
  | elem t a cs =>
      intro h
      simpa [linkLen, innerText] using noNestedF_linkLenF_le cs (by simpa [noNestedAnchors] using h)
  | document cs =>
      intro h
      simpa [linkLen, innerText] using noNestedF_linkLenF_le cs (by simpa [noNestedAnchors] using h)
  | text s => intro _; simp [linkLen]
  | comment s => intro _; simp [linkLen]

theorem noNestedF_linkLenF_le :
    ∀ f : HForest, noNestedF f = true → linkLenF f ≤ (innerTextF f).length := by
  intro f
  cases f with
  | nil => intro _; simp [linkLenF]
  | cons c cs =>
      intro h
      simp only [noNestedF, Bool.and_eq_true] at h
      obtain ⟨h1, h2⟩ := h
      have hcs := noNestedF_linkLenF_le cs h2
      simp only [linkLenF, innerTextF, String.length_append]
      by_cases hq : anchorQualifies c = true
      · rw [hq] at h1
        have h0 := anchorFree_linkLen c h1
        simp [hq, h0]
        omega
      · rw [Bool.not_eq_true] at hq
        rw [hq] at h1
        have hc := noNested_linkLen_le c h1
        simp [hq]
        omega

end

/-- Claim C7, counterexample: a node with nested qualifying anchors has
non-empty text but link density 4/2 = 2, strictly above 1 — each nested
anchor counts its full innerText, so linkLength can exceed the text
length. -/
theorem c7_counterexample :
    (innerText c7tree).length ≠ 0 ∧
    getLinkDensity c7tree = ⟨4, 2⟩ ∧
    Q.le (getLinkDensity c7tree) (Q.ofInt 1) = false :=
  ⟨by decide, by decide, by decide⟩

/-- Claim C7, amended: `getLinkDensity` returns exactly 0 on empty visible
text; on non-empty text it lies in [0,1] PROVIDED no qualifying anchor
descendant is nested inside another one (which the HTML parser
guarantees for parsed documents); with nested anchors it can exceed 1. -/
theorem c7_amended (n : HNode) :
    ((innerText n).length = 0 → getLinkDensity n = Q.ofInt 0) ∧
    ((innerText n).length ≠ 0 → noNestedAnchors n = true →
      Q.le (Q.ofInt 0) (getLinkDensity n) = true ∧
      Q.le (getLinkDensity n) (Q.ofInt 1) = true) := by
  constructor
  · intro h
    unfold getLinkDensity
    simp [h]
  · intro h hn
    have hle := noNested_linkLen_le n hn
    unfold getLinkDensity
    simp only [if_neg h]
    constructor
    · simp [Q.le, Q.ofInt]
    · simp [Q.le, Q.ofInt]
      exact_mod_cast hle

theorem c7_amended_witness :
    ((innerText c7okTree).length ≠ 0 ∧ noNestedAnchors c7okTree = true) ∧
    (Q.le (Q.ofInt 0) (getLinkDensity c7okTree) = true ∧
     Q.le (getLinkDensity c7okTree) (Q.ofInt 1) = true) :=
  ⟨⟨by decide, by decide⟩, (c7_amended c7okTree).2 (by decide) (by decide)⟩

theorem foldl_strAppend (l : List String) (acc : String) :
    l.foldl (· ++ ·) acc = acc ++ l.foldl (· ++ ·) "" := by
  induction l generalizing acc with
  | nil => simp
  | cons x xs ih =>
      simp only [List.foldl_cons]
      rw [ih (acc ++ x), ih ((("" : String)) ++ x)]
      simp [String.append_assoc]

theorem renderToks_append (l1 l2 : List STok) :
    renderToks (l1 ++ l2) = renderToks l1 ++ renderToks l2 := by
  unfold renderToks
  rw [List.map_append, List.foldl_append, foldl_strAppend]

mutual

theorem sanRender_eq_toks (r : String → String) :
    ∀ n : HNode, sanRender r n = renderToks (sanToks r n) := by
  intro n
  cases n with
  | text s => simp [sanRender, sanToks, renderToks, renderTok]
  | comment s => simp [sanRender, sanToks, renderToks]
  | document cs => simp [sanRender, sanToks, renderToks]
  | elem t a cs =>
      by_cases hall : t ∈ allowedHTMLTag
      · have ihf := sanRenderF_eq_toks r cs
        by_cases hf : isFakeP (.elem t a cs) = true
        · simp only [sanRender, sanToks, if_pos hall, hf]
          rw [renderToks_append, renderToks_append]
          simp [renderToks, renderTok, ihf, String.append_assoc]
        · rw [Bool.not_eq_true] at hf
          simp only [sanRender, sanToks, if_pos hall, hf]
          rw [renderToks_append, renderToks_append]
          by_cases hsc : t ∈ selfClosingTags
          · simp [renderToks, renderTok, ihf, hsc, String.append_assoc]
          · simp [renderToks, renderTok, ihf, hsc, String.append_assoc]
      · simp [sanRender, sanToks, if_neg hall, renderToks]

theorem sanRenderF_eq_toks (r : String → String) :
    ∀ f : HForest, sanRenderF r f = renderToks (sanToksF r f) := by
  intro f
  cases f with
  | nil => simp [sanRenderF, sanToksF, renderToks]
  | cons c cs =>
      simp only [sanRenderF, sanToksF]
      rw [renderToks_append, sanRender_eq_toks r c, sanRenderF_eq_toks r cs]

end

theorem emittedAttrs_keys (r : String → String) (t : String)
    (a : List (String × String)) :
    ∀ kv ∈ emittedAttrs r t a, kv.1 ∈ allowedAttrKeys := by
  intro kv hkv
  simp only [emittedAttrs, List.mem_map, List.mem_filter] at hkv
  obtain ⟨kv0, ⟨_, hk⟩, heq⟩ := hkv
  subst heq
  simpa using hk

mutual

theorem sanToks_allowed (r : String → String) :
    ∀ n : HNode, ∀ tok ∈ sanToks r n, tokAllowed tok := by
  intro n
  cases n with
  | text s => intro tok htok; simp [sanToks] at htok; subst htok; trivial
  | comment s => intro tok htok; simp [sanToks] at htok
  | document cs => intro tok htok; simp [sanToks] at htok
  | elem t a cs =>
      intro tok htok
      by_cases hall : t ∈ allowedHTMLTag
      · simp only [sanToks, if_pos hall, List.mem_append] at htok
        rcases htok with (htok | htok) | htok
        · by_cases hf : isFakeP (.elem t a cs) = true
          · rw [if_pos hf] at htok
            simp at htok
            subst htok
            exact emittedAttrs_keys r t a
          · rw [Bool.not_eq_true] at hf
            rw [if_neg (by simp [hf])] at htok
            simp at htok
            subst htok
            exact ⟨hall, emittedAttrs_keys r t a⟩
        · exact sanToksF_allowed r cs tok htok
        · by_cases hcl : (!isFakeP (.elem t a cs) && !(t ∈ selfClosingTags)) = true
          · rw [if_pos hcl] at htok
            simp at htok
            subst htok
            exact hall
          · rw [Bool.not_eq_true] at hcl
            rw [if_neg (by simp [hcl])] at htok
            simp at htok
      · simp [sanToks, if_neg hall] at htok

theorem sanToksF_allowed (r : String → String) :
    ∀ f : HForest, ∀ tok ∈ sanToksF r f, tokAllowed tok := by
  intro f
  cases f with
  | nil => intro tok htok; simp [sanToksF] at htok
  | cons c cs =>
      intro tok htok
      simp only [sanToksF, List.mem_append] at htok
      rcases htok with htok | htok
      · exact sanToks_allowed r c tok htok
      · exact sanToksF_allowed r cs tok htok

end

/-- Claim C5, counterexample: the sanitize of readability.go falls back to
the RAW serialization when the whitelist serializer emits nothing —
here a selection holding only a `<ul>` (not on the tag allow-list, kept
by conditional cleaning thanks to its ten commas) yields an output that
still contains the `<ul>` tag. -/
theorem c5_counterexample :
    sanitizeDoc id 25 c5doc = some c5out ∧
    containsSub c5out "<ul" = true ∧
    ("ul" ∈ allowedHTMLTag) = False :=
  ⟨by decide, by decide, by decide⟩

/-- Claim C5, amended: whenever the whitelist serialization of the cleaned
body is non-empty, sanitize returns exactly its normalization, and that
serialization is the rendering of an event stream in which every opened
element is on the tag allow-list and every emitted attribute key is on
the attribute allow-list; only when the whitelist serialization is empty
does the raw fallback (which ignores both allow-lists) fire. -/
theorem c5_amended (resolve : String → String) (minLen : ℕ)
    (doc body : HNode) (hbody : cleanedBody minLen doc = some body)
    (hne : sanRenderF resolve body.childrenOf ≠ "") :
    sanitizeDoc resolve minLen doc =
      some (normalizeOut (sanRenderF resolve body.childrenOf)) ∧
    sanRenderF resolve body.childrenOf =
      renderToks (sanToksF resolve body.childrenOf) ∧
    ∀ tok ∈ sanToksF resolve body.childrenOf, tokAllowed tok := by
  refine ⟨?_, sanRenderF_eq_toks resolve body.childrenOf,
    sanToksF_allowed resolve body.childrenOf⟩
  unfold sanitizeDoc
  rw [hbody]
  simp [hne]

theorem c5_amended_witness :
    cleanedBody 25 c5okDoc =
      some (.elem "body" [] (nf [.elem "p" [] (nf [.text "hello world"])])) ∧
    sanRenderF id (HNode.elem "body" []
      (nf [.elem "p" [] (nf [.text "hello world"])])).childrenOf ≠ "" ∧
    sanitizeDoc id 25 c5okDoc =
      some (normalizeOut (sanRenderF id (HNode.elem "body" []
        (nf [.elem "p" [] (nf [.text "hello world"])])).childrenOf)) :=
  ⟨by decide, by decide,
    (c5_amended id 25 c5okDoc
      (.elem "body" [] (nf [.elem "p" [] (nf [.text "hello world"])]))
      (by decide) (by decide)).1⟩

theorem candLookup_candAdd_self (l : List Cand) (k : List ℕ) (v : Q) :
    candLookup (candAdd l k v) k = (candLookup l k).map (fun s => s.add v) := by
  induction l with
  | nil => rfl
  | cons c cs ih =>
      have ih2 : candLookup (List.map (fun c => if c.1 = k then (c.1, c.2.add v) else c) cs) k
          = Option.map (fun s => s.add v) (candLookup cs k) := by
        simpa [candAdd] using ih
      by_cases h : c.1 = k
      · simp [candLookup, candAdd, h]
      · simp [candLookup, candAdd, h, ih2]

theorem candLookup_candAdd_ne (l : List Cand) (k k2 : List ℕ) (v : Q)
    (h : k2 ≠ k) :
    candLookup (candAdd l k v) k2 = candLookup l k2 := by
  induction l with
  | nil => rfl
  | cons c cs ih =>
      simp only [candAdd, List.map_cons] at ih ⊢
      by_cases hc : c.1 = k
      · have hk : ¬(k = k2) := fun he => h he.symm
        have hc2 : ¬(c.1 = k2) := by rw [hc]; exact hk
        simp [candLookup, hc, hk, hc2, ih]
      · by_cases hc2 : c.1 = k2
        · simp [candLookup, hc, hc2, h]
        · simp [candLookup, hc, hc2, ih]

theorem candLookup_append_none (l : List Cand) (k : List ℕ) (b : Q)
    (h : candLookup l k = none) :
    candLookup (l ++ [(k, b)]) k = some b := by
  induction l with
  | nil => simp [candLookup]
  | cons c cs ih =>
      by_cases hc : c.1 = k
      · simp [candLookup, hc] at h
      · simp only [candLookup, hc, if_neg] at h
        simp [candLookup, hc, ih h]

theorem candLookup_append_ne (l : List Cand) (k k2 : List ℕ) (b : Q)
    (h : k2 ≠ k) :
    candLookup (l ++ [(k, b)]) k2 = candLookup l k2 := by
  induction l with
  | nil =>
      simp only [List.nil_append, candLookup]
      exact if_neg (fun he => h he.symm)
  | cons c cs ih =>
      by_cases hc : c.1 = k2
      · simp [candLookup, hc]
      · simp [candLookup, hc, ih]

theorem candLookup_candEnsure_self (l : List Cand) (k : List ℕ) (base : Q) :
    candLookup (candEnsure l k base) k = some ((candLookup l k).getD base) := by
  unfold candEnsure
  rcases hf : candLookup l k with _ | s
  · simp [hf, candLookup_append_none l k base hf]
  · simp [hf]

theorem candLookup_candEnsure_ne (l : List Cand) (k k2 : List ℕ) (base : Q)
    (h : k2 ≠ k) :
    candLookup (candEnsure l k base) k2 = candLookup l k2 := by
  unfold candEnsure
  rcases hf : candLookup l k with _ | s
  · simp [candLookup_append_ne l k k2 base h]
  · simp

/-- Claim C6: the scoring step.  A `<p>`/`<td>` whose text has fewer
codepoints than the threshold contributes nothing; otherwise the step
adds 1 + (ASCII commas) + (full-width commas) + min(floor(len/100), 3)
in full to the parent's accumulated score (starting from its `scoreNode`
base on first reference) and that increment halved to the grandparent's
score when a grandparent exists. -/
theorem c6_scorer_increment (minLen : ℕ) (cands : List Cand) (e : ScoreEntry) :
    (runeCount e.text < minLen → scoreStep minLen cands e = cands) ∧
    (minLen ≤ runeCount e.text → ∀ gpath gnode, e.gp = some (gpath, gnode) →
      gpath ≠ e.parentPath →
      candLookup (scoreStep minLen cands e) e.parentPath =
        some (((candLookup cands e.parentPath).getD (scoreNode e.parentNode)).add
          (Q.ofInt (1 + (countChar ',' e.text : ℤ) + (countChar '，' e.text : ℤ) +
            ((min (runeCount e.text / 100) 3 : ℕ) : ℤ)))) ∧
      candLookup (scoreStep minLen cands e) gpath =
        some (((candLookup cands gpath).getD (scoreNode gnode)).add
          (Q.half (Q.ofInt (1 + (countChar ',' e.text : ℤ) + (countChar '，' e.text : ℤ) +
            ((min (runeCount e.text / 100) 3 : ℕ) : ℤ)))))) ∧
    (minLen ≤ runeCount e.text → e.gp = none →
      candLookup (scoreStep minLen cands e) e.parentPath =
        some (((candLookup cands e.parentPath).getD (scoreNode e.parentNode)).add
          (Q.ofInt (1 + (countChar ',' e.text : ℤ) + (countChar '，' e.text : ℤ) +
            ((min (runeCount e.text / 100) 3 : ℕ) : ℤ))))) := by
  refine ⟨?_, ?_, ?_⟩
  · intro h
    unfold scoreStep
    rw [if_pos h]
  · intro h gpath gnode hgp hne
    have hnot : ¬(runeCount e.text < minLen) := by omega
    unfold scoreStep
    rw [if_neg hnot, hgp]
    constructor
    · rw [candLookup_candAdd_ne _ gpath e.parentPath _ hne.symm,
        candLookup_candAdd_self, candLookup_candEnsure_ne _ gpath e.parentPath _ hne.symm,
        candLookup_candEnsure_self]
      rfl
    · rw [candLookup_candAdd_self, candLookup_candAdd_ne _ e.parentPath gpath _ hne,
        candLookup_candEnsure_self, candLookup_candEnsure_ne _ e.parentPath gpath _ hne]
      rfl
  · intro h hgp
    have hnot : ¬(runeCount e.text < minLen) := by omega
    unfold scoreStep
    rw [if_neg hnot, hgp]
    rw [candLookup_candAdd_self, candLookup_candEnsure_self]
    rfl

theorem c6_scorer_increment_witness :
    (25 ≤ runeCount c6entry.text ∧ c6entry.gp = some ([0], .elem "html" [] .nil) ∧
      ([0] : List ℕ) ≠ [0, 0]) ∧
    (candLookup (scoreStep 25 [] c6entry) c6entry.parentPath =
      some (((candLookup ([] : List Cand) c6entry.parentPath).getD
        (scoreNode c6entry.parentNode)).add
          (Q.ofInt (1 + (countChar ',' c6entry.text : ℤ) + (countChar '，' c6entry.text : ℤ) +
            ((min (runeCount c6entry.text / 100) 3 : ℕ) : ℤ)))) ∧
     candLookup (scoreStep 25 [] c6entry) [0] =
      some (((candLookup ([] : List Cand) [0]).getD
        (scoreNode (.elem "html" [] .nil))).add
          (Q.half (Q.ofInt (1 + (countChar ',' c6entry.text : ℤ) + (countChar '，' c6entry.text : ℤ) +
            ((min (runeCount c6entry.text / 100) 3 : ℕ) : ℤ)))))) :=
  ⟨⟨by decide, by decide, by decide⟩,
    (c6_scorer_increment 25 [] c6entry).2.1 (by decide) [0] (.elem "html" [] .nil)
      (by decide) (by decide)⟩

/-- Claim C10: the one tunable governs both thresholds.  (1) For every value
v, the scoring step skips a `<p>`/`<td>` whose text has fewer than v
CODEPOINTS (`runeCount`).  (2) During conditional cleaning, a
`<table>`/`<ul>`/`<div>` with fewer than 10 comma-like characters whose
trimmed text is shorter than v BYTES (`byteLen ∘ goTrim`) is removed
whenever its image count is 0 or exceeds 2. -/
theorem c10_min_text_length (v : ℕ) :
    (∀ (cands : List Cand) (e : ScoreEntry), runeCount e.text < v →
      scoreStep v cands e = cands) ∧
    (∀ n : HNode, (n.data = "table" ∨ n.data = "ul" ∨ n.data = "div") →
      countChar ',' (innerText n) + countChar '，' (innerText n) < 10 →
      byteLen (goTrim (innerText n)) < v →
      (countDesc (fun t _ => t = "img") n = 0 ∨
        2 < countDesc (fun t _ => t = "img") n) →
      cleanCondShouldRemove v n = true ∧ keepCondPass v n = false) := by
  constructor
  · intro cands e h
    unfold scoreStep
    rw [if_pos h]
  · intro n htag hcommas hlen himg
    have hrem : cleanCondShouldRemove v n = true := by
      simp only [cleanCondShouldRemove]
      split_ifs <;> simp_all
    refine ⟨hrem, ?_⟩
    unfold keepCondPass
    rw [if_pos htag, hrem]
    rfl

theorem refineLoop_no_split (title : String) (seps : List String) (bt : String)
    (h : ∀ sep ∈ seps, splitsOn sep title = false) :
    refineLoop title seps bt = bt := by
  induction seps with
  | nil => rfl
  | cons s rest ih =>
      unfold refineLoop
      rw [h s (by simp)]
      simp only [Bool.false_eq_true, if_false]
      exact ih (fun x hx => h x (by simp [hx]))

theorem refineLoop_conflict (title : String) (seps : List String) (bt : String)
    (hbt : bt ≠ "") (h : ∃ sep ∈ seps, splitsOn sep title = true) :
    refineLoop title seps bt = title := by
  induction seps with
  | nil => simp at h
  | cons s rest ih =>
      by_cases hs : splitsOn s title = true
      · unfold refineLoop
        rw [hs]
        simp [hbt]
      · unfold refineLoop
        rw [Bool.not_eq_true] at hs
        rw [hs]
        simp only [Bool.false_eq_true, if_false]
        refine ih ?_
        obtain ⟨x, hx, hsp⟩ := h
        rcases List.mem_cons.mp hx with he | he
        · rw [he] at hsp
          rw [hsp] at hs
          simp at hs
        · exact ⟨x, he, hsp⟩

theorem refineLoop_single (title : String) (seps : List String) (s : String)
    (hmem : s ∈ seps) (hnd : seps.Nodup) (hs : splitsOn s title = true)
    (hothers : ∀ x ∈ seps, x ≠ s → splitsOn x title = false) :
    refineLoop title seps "" = goTrim (beforeFirst s title) := by
  induction seps with
  | nil => simp at hmem
  | cons x rest ih =>
      rcases List.mem_cons.mp hmem with he | he
      · subst he
        unfold refineLoop
        rw [hs]
        simp only [ne_eq, not_true_eq_false, if_true, reduceIte]
        have hsnot : s ∉ rest := (List.nodup_cons.mp hnd).1
        refine refineLoop_no_split title rest _ ?_
        intro y hy
        refine hothers y (by simp [hy]) ?_
        intro he2
        rw [he2] at hy
        exact hsnot hy
      · have hxs : x ≠ s := by
          intro he2
          rw [he2] at hnd
          exact (List.nodup_cons.mp hnd).1 he
        unfold refineLoop
        rw [hothers x (by simp) hxs]
        simp only [Bool.false_eq_true, if_false]
        exact ih he (List.nodup_cons.mp hnd).2
          (fun y hy hne => hothers y (by simp [hy]) hne)

theorem refineLoop_two_splits (title : String) (seps : List String)
    (h2 : 2 ≤ (seps.filter (fun sep => splitsOn sep title)).length)
    (hne : ∀ sep ∈ seps, splitsOn sep title = true →
      goTrim (beforeFirst sep title) ≠ "") :
    refineLoop title seps "" = title := by
  induction seps with
  | nil => simp at h2
  | cons x rest ih =>
      by_cases hx : splitsOn x title = true
      · have hrest : 1 ≤ (rest.filter (fun sep => splitsOn sep title)).length := by
          rw [List.filter_cons, if_pos (by simp [hx])] at h2
          simpa using h2
        have hex : ∃ sep ∈ rest, splitsOn sep title = true := by
          obtain ⟨y, hy⟩ :=
            List.exists_mem_of_ne_nil _ (List.length_pos.mp hrest)
          have hyf := List.mem_filter.mp hy
          exact ⟨y, hyf.1, by simpa using hyf.2⟩
        unfold refineLoop
        rw [hx]
        simp only [ne_eq, not_true_eq_false, reduceIte]
        exact refineLoop_conflict title rest _ (hne x (by simp) hx) hex
      · unfold refineLoop
        rw [Bool.not_eq_true] at hx
        rw [hx]
        simp only [Bool.false_eq_true, if_false]
        refine ih ?_ (fun y hy hsp => hne y (by simp [hy]) hsp)
        rw [List.filter_cons, if_neg (by simp [hx])] at h2
        exact h2

/-- Claim C8, counterexample: for the raw title "«A very long something»suffix"
refinement candidates arise under TWO distinct separators ("«" and "»"),
so the claim demands the raw title — but because the first separator's
trimmed first segment is empty the code never detects the conflict, and
`Title()` returns the refinement "«A very long something" instead. -/
theorem c8_counterexample :
    rawTitle c8tree = "«A very long something»suffix" ∧
    (titleSeps.filter (fun sep => splitsOn sep (rawTitle c8tree))).length = 2 ∧
    parseTitle c8tree = "«A very long something" ∧
    parseTitle c8tree ≠ rawTitle c8tree :=
  ⟨by decide, by decide, by decide, by decide⟩

/-- Claim C8, amended: with title := the raw title (meta og:title/twitter:title
content, else `<title>` text, else ""): (a) if no separator of the
ordered set splits it, Title() returns it unchanged; (b) if exactly one
separator splits it and that separator's trimmed first segment is longer
than 10 BYTES, Title() returns that segment; (c) if exactly one
separator splits it and the segment is at most 10 bytes, Title() returns
the raw title; (d) if two or more separators split it AND every
splitting separator's trimmed first segment is non-empty, the conflict
rule fires and Title() returns the raw title (an empty earlier segment
defeats conflict detection, as the counterexample shows); (e) with
neither a qualifying meta nor a `<title>`, Title() returns "". -/
theorem c8_amended (t : HNode) :
    ((∀ sep ∈ titleSeps, splitsOn sep (rawTitle t) = false) →
      parseTitle t = rawTitle t) ∧
    (∀ s ∈ titleSeps, splitsOn s (rawTitle t) = true →
      (∀ x ∈ titleSeps, x ≠ s → splitsOn x (rawTitle t) = false) →
      10 < byteLen (goTrim (beforeFirst s (rawTitle t))) →
      parseTitle t = goTrim (beforeFirst s (rawTitle t))) ∧
    (∀ s ∈ titleSeps, splitsOn s (rawTitle t) = true →
      (∀ x ∈ titleSeps, x ≠ s → splitsOn x (rawTitle t) = false) →
      byteLen (goTrim (beforeFirst s (rawTitle t))) ≤ 10 →
      parseTitle t = rawTitle t) ∧
    (2 ≤ (titleSeps.filter (fun sep => splitsOn sep (rawTitle t))).length →
      (∀ sep ∈ titleSeps, splitsOn sep (rawTitle t) = true →
        goTrim (beforeFirst sep (rawTitle t)) ≠ "") →
      parseTitle t = rawTitle t) ∧
    (findElemN
        (fun tag a =>
          tag = "meta" ∧
            (selectAttr a "property" = "og:title" ∨
             selectAttr a "name" = "twitter:title")) t = none →
      findElemN (fun tag _ => tag = "title") t = none →
      parseTitle t = "") := by
  refine ⟨?_, ?_, ?_, ?_, ?_⟩
  · intro h
    simp only [parseTitle]
    rw [refineLoop_no_split _ _ _ h]
    rfl
  · intro s hmem hs hothers hlen
    simp only [parseTitle]
    rw [refineLoop_single _ _ s hmem (by decide) hs hothers, if_pos hlen]
  · intro s hmem hs hothers hlen
    simp only [parseTitle]
    rw [refineLoop_single _ _ s hmem (by decide) hs hothers,
      if_neg (by omega)]
  · intro h2 hne
    simp only [parseTitle]
    rw [refineLoop_two_splits _ _ h2 hne]
    split_ifs <;> rfl
  · intro hmeta htitle
    simp only [parseTitle]
    have hraw : rawTitle t = "" := by
      unfold rawTitle
      rw [hmeta, htitle]
    rw [hraw]
    rfl

theorem c8_amended_witness :
    (" | " ∈ titleSeps ∧ splitsOn " | " (rawTitle c8okTree) = true ∧
      (∀ x ∈ titleSeps, x ≠ " | " → splitsOn x (rawTitle c8okTree) = false) ∧
      10 < byteLen (goTrim (beforeFirst " | " (rawTitle c8okTree)))) ∧
    parseTitle c8okTree = goTrim (beforeFirst " | " (rawTitle c8okTree)) :=
  ⟨⟨by decide, by decide, by decide, by decide⟩,
    (c8_amended c8okTree).2.1 " | " (by decide) (by decide) (by decide) (by decide)⟩

theorem updateAt_getN (f : PNode → PNode) (k : ℕ) (s : Store) (j : ℕ) :
    getN (updateAt f k s) j = if j = k then (getN s j).map f else getN s j := by
  induction s generalizing k j with
  | nil =>
      cases k <;> simp [updateAt, getN]
  | cons x xs ih =>
      cases k with
      | zero =>
          cases j with
          | zero => simp [updateAt, getN]
          | succ j => simp [updateAt, getN]
      | succ k =>
          cases j with
          | zero => simp [updateAt, getN]
          | succ j =>
              simp only [updateAt, getN, List.get?_cons_succ, Nat.succ_eq_add_one,
                Nat.add_right_cancel_iff]
              exact ih k j

theorem bindField_updateAt (g : PNode → Option ℕ) (f : PNode → PNode)
    (hf : ∀ x, g (f x) = g x) (k : ℕ) (s : Store) (j : ℕ) :
    (getN (updateAt f k s) j).bind g = (getN s j).bind g := by
  rw [updateAt_getN]
  split
  · cases getN s j <;> simp [hf]
  · rfl

theorem chain_not_mem (s : Store) (i : ℕ)
    (h : ∀ j, nextOf s j ≠ some i) :
    ∀ (fuel : ℕ) (c : Option ℕ), c ≠ some i → i ∉ chainFrom s fuel c := by
  intro fuel
  induction fuel with
  | zero => intro c _; simp [chainFrom]
  | succ f ih =>
      intro c hc
      match c with
      | none => simp [chainFrom]
      | some k =>
          simp only [chainFrom, List.mem_cons, not_or]
          refine ⟨?_, ih (nextOf s k) (h k)⟩
          intro he
          exact hc (by rw [he])

theorem removeNodesP_eq (s : Store) (i : ℕ) (pn : PNode) (a : ℕ)
    (hget : getN s i = some pn) (hp : pn.parent = some a) :
    removeNodesP s i = rnStage3 s pn i a := by
  simp only [removeNodesP, hget, hp]

theorem rnStage1_parentOf (s : Store) (pn : PNode) (j : ℕ) :
    parentOf (rnStage1 s pn) j = parentOf s j := by
  unfold rnStage1
  cases pn.nextSibling with
  | none => rfl
  | some ns =>
      exact bindField_updateAt (fun x => x.parent) (fun x => { x with prevSibling := pn.prevSibling }) (fun _ => rfl) ns s j

theorem rnStage2_parentOf (s : Store) (pn : PNode) (j : ℕ) :
    parentOf (rnStage2 s pn) j = parentOf s j := by
  unfold rnStage2
  cases pn.prevSibling with
  | none => exact rnStage1_parentOf s pn j
  | some ps =>
      exact (bindField_updateAt (fun x => x.parent) (fun x => { x with nextSibling := pn.nextSibling }) (fun _ => rfl)
        ps (rnStage1 s pn) j).trans (rnStage1_parentOf s pn j)

theorem rnStage3_parentOf (s : Store) (pn : PNode) (i a j : ℕ) :
    parentOf (rnStage3 s pn i a) j = parentOf s j := by
  unfold rnStage3
  cases getN (rnStage2 s pn) a with
  | none => exact rnStage2_parentOf s pn j
  | some pp =>
      by_cases hfc : pp.firstChild = some i
      · simp only [hfc, if_pos]
        exact (bindField_updateAt (fun x => x.parent) (fun x => { x with firstChild := pn.nextSibling }) (fun _ => rfl)
          a (rnStage2 s pn) j).trans (rnStage2_parentOf s pn j)
      · simp only [hfc, if_neg, if_false]
        exact rnStage2_parentOf s pn j

theorem rnStage1_lastChildOf (s : Store) (pn : PNode) (j : ℕ) :
    lastChildOf (rnStage1 s pn) j = lastChildOf s j := by
  unfold rnStage1
  cases pn.nextSibling with
  | none => rfl
  | some ns =>
      exact bindField_updateAt (fun x => x.lastChild) (fun x => { x with prevSibling := pn.prevSibling }) (fun _ => rfl) ns s j

theorem rnStage2_lastChildOf (s : Store) (pn : PNode) (j : ℕ) :
    lastChildOf (rnStage2 s pn) j = lastChildOf s j := by
  unfold rnStage2
  cases pn.prevSibling with
  | none => exact rnStage1_lastChildOf s pn j
  | some ps =>
      exact (bindField_updateAt (fun x => x.lastChild) (fun x => { x with nextSibling := pn.nextSibling }) (fun _ => rfl)
        ps (rnStage1 s pn) j).trans (rnStage1_lastChildOf s pn j)

theorem rnStage3_lastChildOf (s : Store) (pn : PNode) (i a j : ℕ) :
    lastChildOf (rnStage3 s pn i a) j = lastChildOf s j := by
  unfold rnStage3
  cases getN (rnStage2 s pn) a with
  | none => exact rnStage2_lastChildOf s pn j
  | some pp =>
      by_cases hfc : pp.firstChild = some i
      · simp only [hfc, if_pos]
        exact (bindField_updateAt (fun x => x.lastChild) (fun x => { x with firstChild := pn.nextSibling }) (fun _ => rfl)
          a (rnStage2 s pn) j).trans (rnStage2_lastChildOf s pn j)
      · simp only [hfc, if_neg, if_false]
        exact rnStage2_lastChildOf s pn j

theorem rnStage1_nextOf (s : Store) (pn : PNode) (j : ℕ) :
    nextOf (rnStage1 s pn) j = nextOf s j := by
  unfold rnStage1
  cases pn.nextSibling with
  | none => rfl
  | some ns =>
      exact bindField_updateAt (fun x => x.nextSibling) (fun x => { x with prevSibling := pn.prevSibling }) (fun _ => rfl) ns s j

theorem rnStage1_firstChildOf (s : Store) (pn : PNode) (j : ℕ) :
    firstChildOf (rnStage1 s pn) j = firstChildOf s j := by
  unfold rnStage1
  cases pn.nextSibling with
  | none => rfl
  | some ns =>
      exact bindField_updateAt (fun x => x.firstChild) (fun x => { x with prevSibling := pn.prevSibling }) (fun _ => rfl) ns s j

theorem rnStage2_firstChildOf (s : Store) (pn : PNode) (j : ℕ) :
    firstChildOf (rnStage2 s pn) j = firstChildOf s j := by
  unfold rnStage2
  cases pn.prevSibling with
  | none => exact rnStage1_firstChildOf s pn j
  | some ps =>
      exact (bindField_updateAt (fun x => x.firstChild)
        (fun x => { x with nextSibling := pn.nextSibling }) (fun _ => rfl)
        ps (rnStage1 s pn) j).trans (rnStage1_firstChildOf s pn j)

theorem rnStage2_next_not_i (s : Store) (pn : PNode) (i : ℕ)
    (hni : pn.nextSibling ≠ some i)
    (huniq2 : ∀ j, nextOf s j = some i → pn.prevSibling = some j) :
    ∀ j, nextOf (rnStage2 s pn) j ≠ some i := by
  intro j
  unfold rnStage2
  cases hps : pn.prevSibling with
  | none =>
      rw [rnStage1_nextOf]
      intro hj
      have := huniq2 j hj
      rw [hps] at this
      simp at this
  | some ps =>
      by_cases hj : j = ps
      · subst hj
        unfold nextOf
        rw [updateAt_getN]
        simp only [if_pos rfl]
        cases getN (rnStage1 s pn) j with
        | none => simp
        | some x => simpa using hni
      · unfold nextOf
        rw [updateAt_getN, if_neg hj]
        have hrw : (getN (rnStage1 s pn) j).bind (fun x => x.nextSibling) = nextOf s j :=
          rnStage1_nextOf s pn j
        rw [hrw]
        intro hjx
        have := huniq2 j hjx
        rw [hps] at this
        exact hj (by simpa using this.symm)

theorem rnStage3_nextOf (s : Store) (pn : PNode) (i a j : ℕ) :
    nextOf (rnStage3 s pn i a) j = nextOf (rnStage2 s pn) j := by
  unfold rnStage3
  cases getN (rnStage2 s pn) a with
  | none => rfl
  | some pp =>
      by_cases hfc : pp.firstChild = some i
      · simp only [hfc, if_pos]
        exact bindField_updateAt (fun x => x.nextSibling)
          (fun x => { x with firstChild := pn.nextSibling }) (fun _ => rfl)
          a (rnStage2 s pn) j
      · simp only [hfc, if_neg, if_false]

theorem rnStage3_firstChild_not_i (s : Store) (pn : PNode) (i a : ℕ)
    (hni : pn.nextSibling ≠ some i) :
    firstChildOf (rnStage3 s pn i a) a ≠ some i := by
  unfold rnStage3
  cases hpp : getN (rnStage2 s pn) a with
  | none =>
      unfold firstChildOf
      rw [hpp]
      simp
  | some pp =>
      by_cases hfc : pp.firstChild = some i
      · simp only [hfc, if_pos]
        unfold firstChildOf
        rw [updateAt_getN]
        simp only [if_pos rfl, hpp]
        simpa using hni
      · simp only [hfc, if_neg, if_false]
        unfold firstChildOf
        rw [hpp]
        simpa using hfc

/-- Claim C4, counterexample: removing the last child C=2 of A=0 leaves
C.parent still pointing at A while C is no longer in A's child
traversal (so the claimed iff between "in the child list" and "parent
pointer equals A" fails), and A's LastChild still references the
removed node (so the removed node remains reachable from its former
parent via a link). -/
theorem c4_counterexample :
    parentOf (removeNodesP c4store 2) 2 = some 0 ∧
    childList (removeNodesP c4store 2) 0 = [1] ∧
    (2 ∈ childList (removeNodesP c4store 2) 0) = False ∧
    lastChildOf (removeNodesP c4store 2) 0 = some 2 :=
  ⟨by decide, by decide, by decide, by decide⟩

/-- Claim C4, amended: `removeNodes` performs only a partial unlink: it never
touches any node's parent pointer or any node's LastChild pointer (so a
removed last child stays reachable through LastChild and keeps its stale
parent pointer), but — provided the only incoming next-sibling edge into
n comes from n's recorded previous sibling and n is not its own next
sibling — the removed node does disappear from its former parent's
forward (FirstChild/NextSibling) child traversal. -/
theorem c4_amended (s : Store) (i a : ℕ)
    (hpar : parentOf s i = some a)
    (hself : nextOf s i ≠ some i)
    (huniq : ∀ j, j < s.length → nextOf s j = some i → prevOf s i = some j) :
    (∀ j, parentOf (removeNodesP s i) j = parentOf s j) ∧
    (∀ j, lastChildOf (removeNodesP s i) j = lastChildOf s j) ∧
    i ∉ childList (removeNodesP s i) a := by
  obtain ⟨pn, hget, hp⟩ : ∃ pn, getN s i = some pn ∧ pn.parent = some a := by
    unfold parentOf at hpar
    cases hg : getN s i with
    | none => rw [hg] at hpar; simp at hpar
    | some x => rw [hg] at hpar; exact ⟨x, rfl, by simpa using hpar⟩
  have hnexti : nextOf s i = pn.nextSibling := by
    unfold nextOf
    rw [hget]
    rfl
  have hni : pn.nextSibling ≠ some i := by
    rw [← hnexti]
    exact hself
  have huniq2 : ∀ j, nextOf s j = some i → pn.prevSibling = some j := by
    intro j hj
    have hdom : j < s.length := by
      by_contra hge
      have hnone : getN s j = none := by
        unfold getN
        exact List.get?_eq_none.mpr (by omega)
      unfold nextOf at hj
      rw [hnone] at hj
      simp at hj
    have := huniq j hdom hj
    unfold prevOf at this
    rw [hget] at this
    simpa using this
  rw [removeNodesP_eq s i pn a hget hp]
  refine ⟨fun j => rnStage3_parentOf s pn i a j,
    fun j => rnStage3_lastChildOf s pn i a j, ?_⟩
  have hnext3 : ∀ j, nextOf (rnStage3 s pn i a) j ≠ some i := by
    intro j
    rw [rnStage3_nextOf]
    exact rnStage2_next_not_i s pn i hni huniq2 j
  unfold childList
  exact chain_not_mem (rnStage3 s pn i a) i hnext3 _ _
    (rnStage3_firstChild_not_i s pn i a hni)

theorem c4_amended_witness :
    (parentOf c4store 2 = some 0 ∧ nextOf c4store 2 ≠ some 2 ∧
      (∀ j, j < c4store.length → nextOf c4store j = some 2 →
        prevOf c4store 2 = some j)) ∧
    ((∀ j, parentOf (removeNodesP c4store 2) j = parentOf c4store j) ∧
     (∀ j, lastChildOf (removeNodesP c4store 2) j = lastChildOf c4store j) ∧
     2 ∉ childList (removeNodesP c4store 2) 0) :=
  ⟨⟨by decide, by decide, by decide⟩,
    c4_amended c4store 2 0 (by decide) (by decide) (by decide)⟩

theorem qlt_asymm (a b : Q) (h : Q.lt a b = true) : Q.lt b a = false := by
  simp only [Q.lt, decide_eq_true_eq, decide_eq_false_iff_not] at *
  omega

theorem qlt_irrefl (a : Q) : Q.lt a a = false := by
  simp only [Q.lt, decide_eq_false_iff_not]
  omega

theorem foldlBest_keep (l : List Cand) (x : Cand)
    (hx : ∀ y ∈ l, Q.lt x.2 y.2 = false) :
    l.foldl
      (fun b c =>
        match b with
        | none => some c
        | some b0 => if b0.2.lt c.2 then some c else some b0)
      (some x) = some x := by
  induction l with
  | nil => rfl
  | cons c cs ih =>
      have hc := hx c (by simp)
      simp only [List.foldl_cons, hc, Bool.false_eq_true, if_false]
      exact ih (fun y hy => hx y (by simp [hy]))

theorem foldlBest_reach (l : List Cand) (x : Cand)
    (hmax : ∀ y ∈ l, y ≠ x → Q.lt y.2 x.2 = true) :
    ∀ acc : Option Cand, x ∈ l →
      (acc = none ∨ ∃ b, acc = some b ∧ Q.lt b.2 x.2 = true) →
      l.foldl
        (fun b c =>
          match b with
          | none => some c
          | some b0 => if b0.2.lt c.2 then some c else some b0)
        acc = some x := by
  induction l with
  | nil => intro acc hx _; simp at hx
  | cons c cs ih =>
      intro acc hx hacc
      have hkeep : c = x → ∀ y ∈ cs, Q.lt x.2 y.2 = false := by
        intro hcx y hy
        by_cases hyx : y = x
        · rw [hyx]; exact qlt_irrefl x.2
        · exact qlt_asymm _ _ (hmax y (by simp [hy]) hyx)
      have hmax' : ∀ y ∈ cs, y ≠ x → Q.lt y.2 x.2 = true :=
        fun y hy hne => hmax y (by simp [hy]) hne
      rcases hacc with hacc | ⟨b, hacc, hblt⟩
      · subst hacc
        simp only [List.foldl_cons]
        by_cases hcx : c = x
        · subst hcx
          exact foldlBest_keep cs c (hkeep rfl)
        · have hxcs : x ∈ cs := by
            rcases List.mem_cons.mp hx with h | h
            · exact absurd h.symm hcx
            · exact h
          exact ih hmax' (some c) hxcs (Or.inr ⟨c, rfl, hmax c (by simp) hcx⟩)
      · subst hacc
        simp only [List.foldl_cons]
        by_cases hbc : Q.lt b.2 c.2 = true
        · simp only [hbc, if_true]
          by_cases hcx : c = x
          · subst hcx
            exact foldlBest_keep cs c (hkeep rfl)
          · have hxcs : x ∈ cs := by
              rcases List.mem_cons.mp hx with h | h
              · exact absurd h.symm hcx
              · exact h
            exact ih hmax' (some c) hxcs (Or.inr ⟨c, rfl, hmax c (by simp) hcx⟩)
        · simp only [Bool.not_eq_true] at hbc
          simp only [hbc, Bool.false_eq_true, if_false]
          have hcx : c ≠ x := by
            intro hcx
            rw [hcx, hblt] at hbc
            simp at hbc
          have hxcs : x ∈ cs := by
            rcases List.mem_cons.mp hx with h | h
            · exact absurd h.symm hcx
            · exact h
          exact ih hmax' (some b) hxcs (Or.inr ⟨b, rfl, hblt⟩)

theorem selectBest_uniqueMax (l : List Cand) (x : Cand) (hx : x ∈ l)
    (hmax : ∀ y ∈ l, y ≠ x → Q.lt y.2 x.2 = true) : selectBest l = some x :=
  foldlBest_reach l x hmax none hx (Or.inl rfl)

theorem candLookup_perm (l1 l2 : List Cand) (hp : l1.Perm l2) :
    (l1.map Prod.fst).Nodup → ∀ k, candLookup l1 k = candLookup l2 k := by
  induction hp with
  | nil => intro _ k; rfl
  | cons x hp ih =>
      intro hnd k
      rw [List.map_cons] at hnd
      have hnd2 := hnd.of_cons
      by_cases hk : x.1 = k
      · simp [candLookup, hk]
      · simp [candLookup, hk, ih hnd2 k]
  | swap x y l =>
      intro hnd k
      have hyx : y.1 ≠ x.1 := by
        simp only [List.map_cons, List.nodup_cons, List.mem_cons, not_or] at hnd
        exact hnd.1.1
      by_cases hyk : y.1 = k
      · have hxk : ¬(x.1 = k) := fun he => hyx (hyk.trans he.symm)
        simp [candLookup, hyk, hxk]
      · by_cases hxk : x.1 = k
        · simp [candLookup, hyk, hxk]
        · simp [candLookup, hyk, hxk]
  | trans h12 h23 ih1 ih2 =>
      intro hnd k
      have hnd2 := ((h12.map Prod.fst).nodup_iff).mp hnd
      exact (ih1 hnd k).trans (ih2 hnd2 k)

/-- Claim C9, counterexample: on `c9tree` two candidates tie for the highest
rescaled score; enumerating the same candidate map in two different
orders — Go randomizes hash-map iteration order between runs — produces
two DIFFERENT output strings, so extraction is not deterministic under
ties. -/
theorem c9_counterexample :
    ((candidatesOf 25 c9tree).reverse.Perm (candidatesOf 25 c9tree)) ∧
    contentWithOrder 25 c9tree (candidatesOf 25 c9tree) ≠
      contentWithOrder 25 c9tree ((candidatesOf 25 c9tree).reverse) :=
  ⟨List.reverse_perm _, by decide⟩

/-- Claim C9, amended: extraction IS deterministic whenever exactly one
candidate attains the maximal rescaled score: any two enumeration
orders of the candidate map produce the same output string.  Under a
tie for the maximum the selected best node — and hence the output —
depends on the enumeration order. -/
theorem c9_amended (minLen : ℕ) (t : HNode) (ord1 ord2 : List Cand) (x : Cand)
    (h1 : ord1.Perm (candidatesOf minLen t))
    (h2 : ord2.Perm (candidatesOf minLen t))
    (hnd : ((candidatesOf minLen t).map Prod.fst).Nodup)
    (hx : x ∈ candidatesOf minLen t)
    (hmax : ∀ y ∈ candidatesOf minLen t, y ≠ x → Q.lt y.2 x.2 = true) :
    contentWithOrder minLen t ord1 = contentWithOrder minLen t ord2 := by
  have hb1 : selectBest ord1 = some x :=
    selectBest_uniqueMax ord1 x (h1.mem_iff.mpr hx)
      (fun y hy hne => hmax y (h1.subset hy) hne)
  have hb2 : selectBest ord2 = some x :=
    selectBest_uniqueMax ord2 x (h2.mem_iff.mpr hx)
      (fun y hy hne => hmax y (h2.subset hy) hne)
  have hl : ∀ k, candLookup ord1 k = candLookup ord2 k := by
    intro k
    have hnd1 : (ord1.map Prod.fst).Nodup := ((h1.map Prod.fst).nodup_iff).mpr hnd
    have hnd2 : (ord2.map Prod.fst).Nodup := ((h2.map Prod.fst).nodup_iff).mpr hnd
    exact (candLookup_perm ord1 (candidatesOf minLen t) h1 hnd1 k).trans
      (candLookup_perm ord2 (candidatesOf minLen t) h2 hnd2 k).symm
  unfold contentWithOrder selectionCore bestWithFallback
  rw [hb1, hb2]
  by_cases hroot : x.1 = []
  · simp [hroot]
  · simp only [if_neg hroot]
    have hpred :
        (fun (e : List ℕ × HNode) =>
          canAppendNode ord1 (siblingThreshold x.2) x.1 e.1 e.2) =
        (fun (e : List ℕ × HNode) =>
          canAppendNode ord2 (siblingThreshold x.2) x.1 e.1 e.2) := by
      funext e
      unfold canAppendNode scoreOKOf
      rw [hl]
    rw [hpred]

theorem c9_amended_witness :
    (((candidatesOf 25 c9uniqTree).reverse.Perm (candidatesOf 25 c9uniqTree)) ∧
      ((candidatesOf 25 c9uniqTree).map Prod.fst).Nodup ∧
      (([0, 0, 0], (⟨210, 30⟩ : Q)) ∈ candidatesOf 25 c9uniqTree) ∧
      (∀ y ∈ candidatesOf 25 c9uniqTree, y ≠ ([0, 0, 0], (⟨210, 30⟩ : Q)) →
        Q.lt y.2 (⟨210, 30⟩ : Q) = true)) ∧
    contentWithOrder 25 c9uniqTree (candidatesOf 25 c9uniqTree) =
      contentWithOrder 25 c9uniqTree ((candidatesOf 25 c9uniqTree).reverse) :=
  ⟨⟨List.reverse_perm _, by decide, by decide, by decide⟩,
    c9_amended 25 c9uniqTree (candidatesOf 25 c9uniqTree)
      ((candidatesOf 25 c9uniqTree).reverse) ([0, 0, 0], ⟨210, 30⟩)
      (List.Perm.refl _) (List.reverse_perm _) (by decide) (by decide) (by decide)⟩

theorem c10_min_text_length_witness :
    ((c10table.data = "table" ∨ c10table.data = "ul" ∨ c10table.data = "div") ∧
      countChar ',' (innerText c10table) + countChar '，' (innerText c10table) < 10 ∧
      byteLen (goTrim (innerText c10table)) < 25 ∧
      2 < countDesc (fun t _ => t = "img") c10table) ∧
    (cleanCondShouldRemove 25 c10table = true ∧ keepCondPass 25 c10table = false) :=
  ⟨⟨by decide, by decide, by decide, by decide⟩,
    (c10_min_text_length 25).2 c10table (by decide) (by decide) (by decide)
      (Or.inr (by decide))⟩

end Goreadly
